import Mathlib

/-!
Amount formatting and parsing of `src/qt/bitcoinunits.cpp`.

A shallow embedding of the unit catalogue, `biblioUnits::format` and
`biblioUnits::parse`, followed by the properties proved about them.

Modelling conventions:

* `QString` is the list of its characters.  Every character the program
  inspects or produces lies in the Basic Multilingual Plane, where one
  `QChar` is one character.
* `qint64` / `CAmount` values are `Int`; the one operation that can leave the
  64-bit range (the negation in `format`) wraps explicitly (`wrapInt64`).
* An output parameter `CAmount* val_out` is an `Option Int`: `none` is the
  null pointer, `some v` a cell that currently holds `v`.  `parse` returns
  its boolean result together with the cell after the call.
* The Qt library functions used by the code (`QString::number`,
  `rightJustified`, `leftJustified`, `insert`, `split`, `toLongLong`,
  `QChar::isSpace`) are modelled after the Qt 5 library, the one this code
  base is built with.
-/

namespace biblioUnits

/-! ## Qt strings -/

/-- A `QChar`. -/
abbrev QChar := Char

/-- A `QString`, as the list of its characters. -/
abbrev QString := List Char

/-- Modelled from the spec: the macro `THIN_SP_CP` is defined in the header
`qt/bitcoinunits.h`, which is not among the sources; the grouping separator
is the thin space U+2009. -/
def THIN_SP_CP : Nat := 0x2009

/-- The character `QChar(THIN_SP_CP)`. -/
def thin_sp : QChar := Char.ofNat THIN_SP_CP

/-- `QChar::isSpace`: U+0020, U+0009..U+000D, U+0085, U+00A0 and the
characters of the Unicode separator categories Zs, Zl and Zp. -/
def isSpace (c : QChar) : Bool :=
  let u := c.toNat
  u == 0x20 || (0x09 ≤ u && u ≤ 0x0d) || u == 0x85 || u == 0xa0 || u == 0x1680 ||
    (0x2000 ≤ u && u ≤ 0x200a) || u == 0x2028 || u == 0x2029 || u == 0x202f ||
    u == 0x205f || u == 0x3000

/-- A decimal digit character, `0` to `9`. -/
def isDigit (c : QChar) : Bool :=
  48 ≤ c.toNat && c.toNat ≤ 57

/-- The number denoted by a string of decimal digits, most significant
first. -/
def digitsVal (s : QString) : Nat :=
  s.foldl (fun v c => 10 * v + (c.toNat - 48)) 0

/-- `QString::number(qint64)`: the decimal digits, after a minus sign for a
negative number. -/
def number (n : Int) : QString :=
  if n < 0 then '-' :: Nat.toDigits 10 n.natAbs else Nat.toDigits 10 n.natAbs

/-- `QString::rightJustified(width, fill)`: pads on the left up to `width`;
a longer string is returned unchanged. -/
def rightJustified (s : QString) (width : Nat) (fill : QChar) : QString :=
  List.replicate (width - s.length) fill ++ s

/-- `QString::leftJustified(width, fill)`: pads on the right up to `width`;
a longer string is returned unchanged. -/
def leftJustified (s : QString) (width : Nat) (fill : QChar) : QString :=
  s ++ List.replicate (width - s.length) fill

/-- `QString::insert(position, ch)` for a position within the string. -/
def insert (s : QString) (position : Nat) (ch : QChar) : QString :=
  s.take position ++ ch :: s.drop position

/-- `QString::split(sep)` for a one-character separator, keeping empty
parts: a string without the separator gives the one-element list of
itself. -/
def split : QString → QChar → List QString
  | [], _ => [[]]
  | c :: cs, sep =>
    if c = sep then [] :: split cs sep
    else
      match split cs sep with
      | [] => [[c]]
      | p :: ps => (c :: p) :: ps

/-- The string without its leading and trailing whitespace. -/
def trimmed (s : QString) : QString :=
  (s.dropWhile isSpace).rdropWhile isSpace

/-- The largest `qint64`. -/
def INT64_MAX : Int := 2 ^ 63 - 1

/-- The smallest `qint64`. -/
def INT64_MIN : Int := -(2 ^ 63)

/-- Reduction of an integer to the two's-complement 64-bit range. -/
def wrapInt64 (x : Int) : Int :=
  (x + 2 ^ 63) % 2 ^ 64 - 2 ^ 63

/-- The conversion of a sign and a digit string, as done by
`QString::toLongLong` once whitespace is trimmed: the digits must be a
non-empty run of `0`..`9` and the signed value must fit a `qint64`. -/
def convertDigits (negative : Bool) (ds : QString) : Int × Bool :=
  if ds.isEmpty || !ds.all isDigit then (0, false)
  else
    let v : Int := if negative then -(digitsVal ds : Int) else (digitsVal ds : Int)
    if INT64_MIN ≤ v ∧ v ≤ INT64_MAX then (v, true) else (0, false)

/-- The minus sign U+2212, which the number reader of Qt's C locale takes
for `-`, next to the ASCII hyphen-minus. -/
def MINUS_SIGN : QChar := Char.ofNat 0x2212

/-- `QString::toLongLong(&ok)` in base 10, as Qt 5 reads a number in the C
locale: leading and trailing whitespace (`QChar::isSpace`) is dropped; the
rest must be an optional sign, which is `+`, `-` or the minus sign U+2212,
and then one or more digits `0`..`9` up to the end; any other character,
whitespace inside the text included, makes the conversion fail, and so does
a value outside the `qint64` range.  The result is the value and the `ok`
flag; the value is 0 when the conversion fails. -/
def toLongLong (s : QString) : Int × Bool :=
  match trimmed s with
  | [] => (0, false)
  | c :: cs =>
    if c = '-' ∨ c = MINUS_SIGN then convertDigits true cs
    else if c = '+' then convertDigits false cs
    else convertDigits false (c :: cs)

/-! ## The unit catalogue -/

/-- The display units (`biblioUnits::Unit`, alias `biblioUnit`); the header
declaring the enumeration is not among the sources, its variants are those
of the `switch` statements. -/
inductive biblioUnit
  | LEX
  | mLEX
  | uLEX
  | SAT
  deriving DecidableEq

/-- The digit grouping policy (`biblioUnits::SeparatorStyle`): never, only
when the integer part has more than 4 characters, or always. -/
inductive SeparatorStyle
  | NEVER
  | STANDARD
  | ALWAYS
  deriving DecidableEq

/-- `MAX_DIGITS_LEX`. -/
def MAX_DIGITS_LEX : Nat := 16

/-- Modelled from the spec: `MAX_MONEY` comes from `consensus/amount.h`, which
is not among the sources; it is 21,000,000 times 100,000,000 base units. -/
def MAX_MONEY : Int := 21000000 * 100000000

/-- `biblioUnits::factor`. -/
def factor : biblioUnit → Int
  | .LEX => 100000000
  | .mLEX => 100000
  | .uLEX => 100
  | .SAT => 1

/-- `biblioUnits::decimals`. -/
def decimals : biblioUnit → Nat
  | .LEX => 8
  | .mLEX => 5
  | .uLEX => 2
  | .SAT => 0

/-! ## Formatting -/

/-- The grouping loop of `format`:
`for (int i = 3; i < q_size; i += 3) quotient_str.insert(q_size - i, thin_sp);`
The first argument after `q_size` bounds the number of iterations. -/
def groupLoop (q_size : Nat) : Nat → Nat → QString → QString
  | 0, _, quotient_str => quotient_str
  | fuel + 1, i, quotient_str =>
    if i < q_size then
      groupLoop q_size fuel (i + 3) (insert quotient_str (q_size - i) thin_sp)
    else quotient_str

/-- `biblioUnits::format`. -/
def format (unit : biblioUnit) (nIn : Int) (fPlus : Bool) (separators : SeparatorStyle)
    (justify : Bool) : QString :=
  let n := nIn
  let coin := factor unit
  let num_decimals := decimals unit
  let n_abs := if n > 0 then n else wrapInt64 (-n)
  let quotient := Int.tdiv n_abs coin
  let q0 := number quotient
  let q1 := if justify then rightJustified q0 (MAX_DIGITS_LEX - num_decimals) ' ' else q0
  let q_size := q1.length
  let q2 :=
    if separators = SeparatorStyle.ALWAYS ∨ (separators = SeparatorStyle.STANDARD ∧ q_size > 4)
    then groupLoop q_size q_size 3 q1 else q1
  let q3 :=
    if n < 0 then insert q2 0 '-'
    else if fPlus = true ∧ n > 0 then insert q2 0 '+'
    else q2
  if num_decimals > 0 then
    let remainder := Int.tmod n_abs coin
    q3 ++ '.' :: rightJustified (number remainder) num_decimals '0'
  else q3

/-! ## Parsing -/

/-- Modelled from the spec: `removeSpaces` is defined in the header
`qt/bitcoinunits.h`, which is not among the sources.  Spaces and grouping
separators are stripped before parsing ("Ignore spaces and thin spaces when
parsing" at the call site): every U+0020 and every thin space is removed. -/
def removeSpaces (text : QString) : QString :=
  (text.filter (fun c => c != ' ')).filter (fun c => c != thin_sp)

/-- `biblioUnits::parse`: the returned flag and the content of `val_out`
after the call. -/
def parse (unit : biblioUnit) (value : QString) (val_out : Option Int) : Bool × Option Int :=
  if value.isEmpty then (false, val_out)
  else
    let num_decimals := decimals unit
    let parts := split (removeSpaces value) '.'
    if parts.length > 2 then (false, val_out)
    else
      let whole := parts.headD []
      let decs := if parts.length > 1 then parts.getD 1 [] else []
      if decs.length > num_decimals then (false, val_out)
      else
        let str := whole ++ leftJustified decs num_decimals '0'
        if str.length > 18 then (false, val_out)
        else
          let retvalue := toLongLong str
          (retvalue.2, val_out.map (fun _ => retvalue.1))

/-- The optional minus sign in front of a number. -/
def signText (negative : Bool) : QString :=
  if negative then ['-'] else []

/-! ## The steps of `parse`, named -/

/-- The list `parts` of `parse`: the text without spaces, split at the
decimal marker. -/
def parseParts (value : QString) : List QString :=
  split (removeSpaces value) '.'

/-- The string `whole` of `parse`, `parts[0]`. -/
def wholePart (value : QString) : QString :=
  (parseParts value).headD []

/-- The string `decimals` of `parse`: `parts[1]` when there is one, empty
otherwise. -/
def fractionPart (value : QString) : QString :=
  if (parseParts value).length > 1 then (parseParts value).getD 1 [] else []

/-- The string `str` of `parse`, handed to the integer conversion: `whole`
followed by `decimals` padded with zeros on the right to `decimals(unit)`
characters. -/
def parseStr (unit : biblioUnit) (value : QString) : QString :=
  wholePart value ++ leftJustified (fractionPart value) (decimals unit) '0'

/-- The four checks of `parse` that return `false` before the integer
conversion: empty text, more than one decimal marker, too many fractional
characters, more than 18 characters to convert. -/
def rejectedBeforeConversion (unit : biblioUnit) (value : QString) : Bool :=
  value.isEmpty || decide ((parseParts value).length > 2)
    || decide ((fractionPart value).length > decimals unit)
    || decide ((parseStr unit value).length > 18)

/-! ## The three pieces of the output of `format` -/

/-- The magnitude `n_abs` computed by `format`. -/
def absAmount (n : Int) : Int :=
  if n > 0 then n else wrapInt64 (-n)

/-- The sign that `format` puts in front. -/
def leadingSign (n : Int) (fPlus : Bool) : QString :=
  if n < 0 then ['-'] else if fPlus = true ∧ n > 0 then ['+'] else []

/-- The integer part of the output of `format`, before the sign is put in
front: the digits of the quotient, justified and grouped. -/
def integerText (unit : biblioUnit) (n_abs : Int) (separators : SeparatorStyle)
    (justify : Bool) : QString :=
  let q0 := number (Int.tdiv n_abs (factor unit))
  let q1 := if justify then rightJustified q0 (MAX_DIGITS_LEX - decimals unit) ' ' else q0
  if separators = SeparatorStyle.ALWAYS ∨ (separators = SeparatorStyle.STANDARD ∧ q1.length > 4)
  then groupLoop q1.length q1.length 3 q1 else q1

/-- The decimal marker and the fractional digits of the output of `format`;
empty for a unit without decimals. -/
def fractionText (unit : biblioUnit) (n_abs : Int) : QString :=
  if decimals unit > 0 then
    '.' :: rightJustified (number (Int.tmod n_abs (factor unit))) (decimals unit) '0'
  else []

/-! ## Names, derived formats, the list model and the tag codec -/

/-- `biblioUnits::availableUnits`: the four `append` calls, in order. -/
def availableUnits : List biblioUnit :=
  ((([] ++ [biblioUnit.LEX]) ++ [biblioUnit.mLEX]) ++ [biblioUnit.uLEX]) ++ [biblioUnit.SAT]

/-- `biblioUnits::longName`. -/
def longName : biblioUnit → QString
  | .LEX => "LEX".toList
  | .mLEX => "mLEX".toList
  | .uLEX => "µLEX (bits)".toList
  | .SAT => "Satoshi (sat)".toList

/-- `biblioUnits::shortName`. -/
def shortName : biblioUnit → QString
  | .LEX => longName biblioUnit.LEX
  | .mLEX => longName biblioUnit.mLEX
  | .uLEX => "bits".toList
  | .SAT => "sat".toList

/-- `biblioUnits::description`; `THIN_SP_UTF8` is the thin space. -/
def description : biblioUnit → QString
  | .LEX => "biblios".toList
  | .mLEX => "Milli-biblios (1 / 1".toList ++ [thin_sp] ++ "000)".toList
  | .uLEX => "Micro-biblios (bits) (1 / 1".toList ++ [thin_sp] ++ "000".toList ++ [thin_sp]
      ++ "000)".toList
  | .SAT => "Satoshi (sat) (1 / 100".toList ++ [thin_sp] ++ "000".toList ++ [thin_sp]
      ++ "000)".toList

/-- `QString::replace(before, after)` for two characters: every occurrence
is replaced. -/
def replace (s : QString) (before after : QChar) : QString :=
  s.map (fun c => if c = before then after else c)

/-- `biblioUnits::formatWithUnit`; `format` is called with its default
`justify = false`. -/
def formatWithUnit (unit : biblioUnit) (amount : Int) (plussign : Bool)
    (separators : SeparatorStyle) : QString :=
  format unit amount plussign separators false ++ [' '] ++ shortName unit

/-- `biblioUnits::formatWithPrivacy`; `none` is the failure of
`assert(amount >= 0)`. -/
def formatWithPrivacy (unit : biblioUnit) (amount : Int) (separators : SeparatorStyle)
    (privacy : Bool) : Option QString :=
  if amount ≥ 0 then
    let value :=
      if privacy then replace (format unit 0 false separators true) '0' '#'
      else format unit amount false separators true
    some (value ++ [' '] ++ shortName unit)
  else none

/-- `Qt::DisplayRole`. -/
def DisplayRole : Int := 0

/-- `Qt::EditRole`. -/
def EditRole : Int := 2

/-- `Qt::ToolTipRole`. -/
def ToolTipRole : Int := 3

/-- Modelled from the spec: `UnitRole` is declared in the header
`qt/bitcoinunits.h`, which is not among the sources; it is the role under
which the display model hands out the underlying variant, `Qt::UserRole`. -/
def UnitRole : Int := 0x0100

/-- A `QVariant` as `data` produces it: empty, a string or a unit. -/
inductive QVariant
  | invalid
  | string (s : QString)
  | unit (u : biblioUnit)
  deriving DecidableEq

/-- The state of a `biblioUnits` object: its member `unitlist`. -/
structure UnitsModel where
  unitlist : List biblioUnit

/-- The constructor `biblioUnits::biblioUnits`: `unitlist(availableUnits())`. -/
def UnitsModel.construct : UnitsModel :=
  ⟨availableUnits⟩

/-- `biblioUnits::rowCount`. -/
def rowCount (m : UnitsModel) : Int :=
  m.unitlist.length

/-- `biblioUnits::data`, by the row of the index and the role. -/
def data (m : UnitsModel) (row : Int) (role : Int) : QVariant :=
  if row ≥ 0 ∧ row < m.unitlist.length then
    match m.unitlist.get? row.toNat with
    | some unit =>
      if role = EditRole ∨ role = DisplayRole then QVariant.string (longName unit)
      else if role = ToolTipRole then QVariant.string (description unit)
      else if role = UnitRole then QVariant.unit unit
      else QVariant.invalid
    | none => QVariant.invalid
  else QVariant.invalid

/-- `ToQint8`. -/
def ToQint8 : biblioUnit → Int
  | .LEX => 0
  | .mLEX => 1
  | .uLEX => 2
  | .SAT => 3

/-- `FromQint8`; `none` is the failure of `assert(false)`. -/
def FromQint8 (num : Int) : Option biblioUnit :=
  if num = 0 then some biblioUnit.LEX
  else if num = 1 then some biblioUnit.mLEX
  else if num = 2 then some biblioUnit.uLEX
  else if num = 3 then some biblioUnit.SAT
  else none

/-- Groups of characters written one after the other, each behind a thin
space: the right-hand side of a grouped integer part. -/
def joinGroups : List QString → QString
  | [] => []
  | g :: gs => thin_sp :: (g ++ joinGroups gs)

/-! ## Decimal digits -/

theorem isDigit_digitChar {m : Nat} (hm : m < 10) : isDigit (Nat.digitChar m) = true := by
  interval_cases m <;> decide

theorem toNat_digitChar {m : Nat} (hm : m < 10) : (Nat.digitChar m).toNat - 48 = m := by
  interval_cases m <;> decide

theorem toDigitsCore_acc (fuel : Nat) : ∀ (n : Nat) (acc : List Char),
    Nat.toDigitsCore 10 fuel n acc = Nat.toDigitsCore 10 fuel n [] ++ acc := by
  induction fuel with
  | zero => intro n acc; simp [Nat.toDigitsCore]
  | succ fuel ih =>
    intro n acc
    simp only [Nat.toDigitsCore]
    split
    · simp
    · rw [ih (n / 10) (Nat.digitChar (n % 10) :: acc), ih (n / 10) [Nat.digitChar (n % 10)]]
      simp

theorem toDigitsCore_fuel (f : Nat) : ∀ (g n : Nat), n < f → n < g →
    Nat.toDigitsCore 10 f n [] = Nat.toDigitsCore 10 g n [] := by
  induction f with
  | zero => intro g n h; omega
  | succ f ih =>
    intro g n hf hg
    cases g with
    | zero => omega
    | succ g =>
      simp only [Nat.toDigitsCore]
      split
      · rfl
      · rename_i h
        have h10 : 10 ≤ n := by omega
        rw [toDigitsCore_acc f, toDigitsCore_acc g, ih g (n / 10) (by omega) (by omega)]

theorem toDigits_lt {n : Nat} (h : n < 10) : Nat.toDigits 10 n = [Nat.digitChar n] := by
  have h0 : n / 10 = 0 := by omega
  simp [Nat.toDigits, Nat.toDigitsCore, h0, Nat.mod_eq_of_lt h]

theorem toDigits_ge {n : Nat} (h : 10 ≤ n) :
    Nat.toDigits 10 n = Nat.toDigits 10 (n / 10) ++ [Nat.digitChar (n % 10)] := by
  have h0 : n / 10 ≠ 0 := by omega
  unfold Nat.toDigits
  rw [Nat.toDigitsCore, if_neg h0, toDigitsCore_acc,
    toDigitsCore_fuel n (n / 10 + 1) (n / 10) (by omega) (by omega)]

theorem toDigits_ne_nil (n : Nat) : Nat.toDigits 10 n ≠ [] := by
  by_cases h : n < 10
  · simp [toDigits_lt h]
  · simp [toDigits_ge (Nat.le_of_not_lt h)]

theorem all_isDigit_toDigits : ∀ (n : Nat) (c : Char), c ∈ Nat.toDigits 10 n → isDigit c = true := by
  intro n
  induction n using Nat.strong_induction_on with
  | _ n ih =>
    intro c hc
    by_cases h : n < 10
    · rw [toDigits_lt h] at hc
      simp only [List.mem_singleton] at hc
      rw [hc]; exact isDigit_digitChar h
    · have h10 : 10 ≤ n := Nat.le_of_not_lt h
      rw [toDigits_ge h10, List.mem_append] at hc
      rcases hc with hc | hc
      · exact ih (n / 10) (by omega) c hc
      · simp only [List.mem_singleton] at hc
        rw [hc]; exact isDigit_digitChar (Nat.mod_lt _ (by decide))

theorem digitsVal_snoc (s : QString) (c : QChar) :
    digitsVal (s ++ [c]) = 10 * digitsVal s + (c.toNat - 48) := by
  simp [digitsVal, List.foldl_append]

theorem digitsVal_toDigits (n : Nat) : digitsVal (Nat.toDigits 10 n) = n := by
  induction n using Nat.strong_induction_on with
  | _ n ih =>
    by_cases h : n < 10
    · rw [toDigits_lt h]
      simp [digitsVal, toNat_digitChar h]
    · have h10 : 10 ≤ n := Nat.le_of_not_lt h
      rw [toDigits_ge h10, digitsVal_snoc, ih (n / 10) (by omega),
        toNat_digitChar (Nat.mod_lt _ (by decide))]
      omega

theorem length_toDigits_le : ∀ (k n : Nat), n < 10 ^ (k + 1) → (Nat.toDigits 10 n).length ≤ k + 1 := by
  intro k
  induction k with
  | zero =>
    intro n hn
    rw [toDigits_lt (by simpa using hn)]; simp
  | succ k ih =>
    intro n hn
    by_cases h : n < 10
    · rw [toDigits_lt h]; simp
    · have h10 : 10 ≤ n := Nat.le_of_not_lt h
      rw [toDigits_ge h10]
      have hq : n / 10 < 10 ^ (k + 1) := by
        rw [Nat.div_lt_iff_lt_mul (by decide)]
        calc n < 10 ^ (k + 1 + 1) := hn
          _ = 10 ^ (k + 1) * 10 := by ring
      have := ih (n / 10) hq
      simp only [List.length_append, List.length_singleton]
      omega

theorem foldl_digits_init (s : QString) : ∀ v : Nat,
    s.foldl (fun v c => 10 * v + (c.toNat - 48)) v
      = v * 10 ^ s.length + s.foldl (fun v c => 10 * v + (c.toNat - 48)) 0 := by
  induction s with
  | nil => intro v; simp
  | cons c cs ih =>
    intro v
    simp only [List.foldl_cons, List.length_cons]
    rw [ih (10 * v + (c.toNat - 48)), ih (10 * 0 + (c.toNat - 48))]
    ring

theorem digitsVal_append (a b : QString) :
    digitsVal (a ++ b) = digitsVal a * 10 ^ b.length + digitsVal b := by
  simp only [digitsVal, List.foldl_append]
  exact foldl_digits_init b _

theorem digitsVal_zeros (k : Nat) : digitsVal (List.replicate k '0') = 0 := by
  induction k with
  | zero => rfl
  | succ k ih =>
    rw [List.replicate_succ', digitsVal_snoc, ih]
    rfl

theorem digitsVal_lt (s : QString) (h : ∀ c ∈ s, isDigit c = true) :
    digitsVal s < 10 ^ s.length := by
  induction s using List.reverseRecOn with
  | nil => simp [digitsVal]
  | append_singleton s c ih =>
    have hs : ∀ d ∈ s, isDigit d = true := fun d hd => h d (by simp [hd])
    have hc : isDigit c = true := h c (by simp)
    have := ih hs
    rw [digitsVal_snoc, List.length_append, List.length_singleton, pow_succ]
    simp only [isDigit, Bool.and_eq_true, decide_eq_true_eq] at hc
    omega

/-! ## Characters -/

theorem isDigit_ne_space {c : QChar} (h : isDigit c = true) : c ≠ ' ' := by
  rintro rfl; revert h; decide

theorem isDigit_ne_thin {c : QChar} (h : isDigit c = true) : c ≠ thin_sp := by
  rintro rfl; revert h; decide

theorem isDigit_ne_dot {c : QChar} (h : isDigit c = true) : c ≠ '.' := by
  rintro rfl; revert h; decide

theorem isDigit_ne_minus {c : QChar} (h : isDigit c = true) : c ≠ '-' := by
  rintro rfl; revert h; decide

theorem isDigit_ne_plus {c : QChar} (h : isDigit c = true) : c ≠ '+' := by
  rintro rfl; revert h; decide

theorem isDigit_not_sign_minus {c : QChar} (h : isDigit c = true) :
    ¬ (c = '-' ∨ c = MINUS_SIGN) := by
  rintro (rfl | rfl) <;> revert h <;> decide

theorem isDigit_not_isSpace {c : QChar} (h : isDigit c = true) : isSpace c = false := by
  simp only [isDigit, Bool.and_eq_true, decide_eq_true_eq] at h
  simp only [isSpace, Bool.or_eq_false_iff, Bool.and_eq_false_iff, beq_eq_false_iff_ne,
    decide_eq_false_iff_not, ne_eq]
  omega

/-! ## Splitting -/

theorem split_ne_nil (s : QString) (sep : QChar) : split s sep ≠ [] := by
  cases s with
  | nil => simp [split]
  | cons c cs =>
    simp only [split]
    split
    · simp
    · split <;> simp

theorem split_of_not_mem (sep : QChar) : ∀ s : QString, sep ∉ s → split s sep = [s] := by
  intro s
  induction s with
  | nil => intro _; rfl
  | cons c cs ih =>
    intro h
    simp only [List.mem_cons, not_or] at h
    have hc : c ≠ sep := fun e => h.1 e.symm
    simp [split, hc, ih h.2]

theorem split_append_sep (sep : QChar) (b : QString) : ∀ a : QString, sep ∉ a →
    split (a ++ sep :: b) sep = a :: split b sep := by
  intro a
  induction a with
  | nil => intro _; simp [split]
  | cons c cs ih =>
    intro h
    simp only [List.mem_cons, not_or] at h
    have hc : c ≠ sep := fun e => h.1 e.symm
    simp [split, hc, ih h.2]

theorem length_split (sep : QChar) : ∀ s : QString, (split s sep).length = s.count sep + 1 := by
  intro s
  induction s with
  | nil => rfl
  | cons c cs ih =>
    by_cases hc : c = sep
    · subst hc
      simp [split, ih]
    · simp only [split, hc, if_false]
      have hcount : (c :: cs).count sep = cs.count sep := by
        rw [List.count_cons]; simp [hc]
      rw [hcount, ← ih]
      cases hsp : split cs sep with
      | nil => exact absurd hsp (split_ne_nil cs sep)
      | cons p ps => simp

/-! ## Removing spaces -/

theorem removeSpaces_append (a b : QString) :
    removeSpaces (a ++ b) = removeSpaces a ++ removeSpaces b := by
  simp [removeSpaces]

theorem removeSpaces_cons_thin (s : QString) : removeSpaces (thin_sp :: s) = removeSpaces s := by
  have h : (thin_sp != ' ') = true := by decide
  simp [removeSpaces, List.filter_cons, h]

theorem removeSpaces_cons_keep {c : QChar} (h1 : c ≠ ' ') (h2 : c ≠ thin_sp) (s : QString) :
    removeSpaces (c :: s) = c :: removeSpaces s := by
  simp [removeSpaces, List.filter_cons, h1, h2]

theorem removeSpaces_digits : ∀ s : QString, (∀ c ∈ s, isDigit c = true) → removeSpaces s = s := by
  intro s
  induction s with
  | nil => intro _; rfl
  | cons c cs ih =>
    intro h
    have hc := h c (by simp)
    rw [removeSpaces_cons_keep (isDigit_ne_space hc) (isDigit_ne_thin hc),
      ih (fun d hd => h d (by simp [hd]))]

theorem removeSpaces_replicate_space (k : Nat) : removeSpaces (List.replicate k ' ') = [] := by
  simp [removeSpaces]

theorem removeSpaces_insert_thin (s : QString) (i : Nat) :
    removeSpaces (insert s i thin_sp) = removeSpaces s := by
  unfold insert
  rw [removeSpaces_append, removeSpaces_cons_thin, ← removeSpaces_append, List.take_append_drop]

theorem removeSpaces_groupLoop (q_size : Nat) : ∀ (fuel i : Nat) (s : QString),
    removeSpaces (groupLoop q_size fuel i s) = removeSpaces s := by
  intro fuel
  induction fuel with
  | zero => intro i s; rfl
  | succ fuel ih =>
    intro i s
    simp only [groupLoop]
    split
    · rw [ih, removeSpaces_insert_thin]
    · rfl

theorem mem_removeSpaces {c : QChar} {s : QString} :
    c ∈ removeSpaces s ↔ c ∈ s ∧ c ≠ ' ' ∧ c ≠ thin_sp := by
  simp only [removeSpaces, List.mem_filter, bne_iff_ne, ne_eq]
  tauto

theorem count_dot_removeSpaces (s : QString) : (removeSpaces s).count '.' = s.count '.' := by
  induction s with
  | nil => rfl
  | cons c cs ih =>
    by_cases h1 : c = ' '
    · subst h1
      have : removeSpaces (' ' :: cs) = removeSpaces cs := by simp [removeSpaces]
      rw [this, ih, List.count_cons]
      simp
    · by_cases h2 : c = thin_sp
      · subst h2
        rw [removeSpaces_cons_thin, ih, List.count_cons]
        have : (thin_sp == '.') = false := by decide
        simp [this]
      · rw [removeSpaces_cons_keep h1 h2, List.count_cons, List.count_cons, ih]

/-! ## Integer conversion -/

theorem mem_dropWhile_of_not {p : QChar → Bool} {c : QChar} : ∀ s : QString,
    c ∈ s → p c = false → c ∈ s.dropWhile p := by
  intro s
  induction s with
  | nil => intro h; simp at h
  | cons d ds ih =>
    intro h hp
    by_cases hd : p d = true
    · rw [List.dropWhile_cons_of_pos hd]
      rcases List.mem_cons.mp h with e | e
      · rw [e, hd] at hp; exact absurd hp (by simp)
      · exact ih e hp
    · rw [List.dropWhile_cons_of_neg hd]; exact h

theorem mem_trimmed {c : QChar} {s : QString} (h : c ∈ s) (hc : isSpace c = false) :
    c ∈ trimmed s := by
  unfold trimmed List.rdropWhile
  rw [List.mem_reverse]
  apply mem_dropWhile_of_not _ _ hc
  rw [List.mem_reverse]
  exact mem_dropWhile_of_not s h hc

theorem trimmed_of_no_space (s : QString) (h : ∀ c ∈ s, isSpace c = false) : trimmed s = s := by
  unfold trimmed
  have h1 : s.dropWhile isSpace = s := by
    cases s with
    | nil => rfl
    | cons d ds =>
      have := h d (by simp)
      rw [List.dropWhile_cons_of_neg (by simp [this])]
  rw [h1, List.rdropWhile_eq_self_iff]
  intro hl
  simp [h _ (List.getLast_mem hl)]

theorem convertDigits_digits (negative : Bool) (ds : QString) (hne : ds ≠ [])
    (hd : ∀ c ∈ ds, isDigit c = true) (hr : (digitsVal ds : Int) ≤ INT64_MAX) :
    convertDigits negative ds
      = ((if negative then -(digitsVal ds : Int) else (digitsVal ds : Int)), true) := by
  have hall : ds.all isDigit = true := by simpa using hd
  have hemp : ds.isEmpty = false := by cases ds <;> simp_all
  have h0 : (0 : Int) ≤ (digitsVal ds : Int) := Int.ofNat_nonneg _
  unfold convertDigits
  simp only [hall, hemp, Bool.not_true, Bool.or_self, Bool.false_eq_true, if_false]
  have hmin : INT64_MIN ≤ 0 := by decide
  have hmax : (0 : Int) ≤ INT64_MAX := by decide
  cases negative
  · simp only [Bool.false_eq_true, if_false]
    rw [if_pos ⟨by omega, hr⟩]
  · simp only [if_true]
    rw [if_pos ⟨by unfold INT64_MIN INT64_MAX at *; omega, by omega⟩]

theorem convertDigits_not_digit (negative : Bool) (ds : QString) (c : QChar) (hc : c ∈ ds)
    (hd : isDigit c = false) : convertDigits negative ds = (0, false) := by
  have hall : ds.all isDigit = false := by
    rw [List.all_eq_false]
    exact ⟨c, hc, by simp [hd]⟩
  simp [convertDigits, hall]

theorem toLongLong_digits (ds : QString) (hne : ds ≠ []) (hd : ∀ c ∈ ds, isDigit c = true)
    (hr : (digitsVal ds : Int) ≤ INT64_MAX) : toLongLong ds = ((digitsVal ds : Int), true) := by
  unfold toLongLong
  rw [trimmed_of_no_space ds (fun c hc => isDigit_not_isSpace (hd c hc))]
  cases ds with
  | nil => exact absurd rfl hne
  | cons c cs =>
    have hc := hd c (by simp)
    dsimp only
    rw [if_neg (isDigit_not_sign_minus hc), if_neg (isDigit_ne_plus hc),
      convertDigits_digits false (c :: cs) hne hd hr]
    rfl

theorem toLongLong_minus_digits (ds : QString) (hne : ds ≠ [])
    (hd : ∀ c ∈ ds, isDigit c = true) (hr : (digitsVal ds : Int) ≤ INT64_MAX) :
    toLongLong ('-' :: ds) = (-(digitsVal ds : Int), true) := by
  have hsp : ∀ c ∈ ('-' :: ds), isSpace c = false := by
    intro c hc
    rcases List.mem_cons.mp hc with e | e
    · rw [e]; decide
    · exact isDigit_not_isSpace (hd c e)
  unfold toLongLong
  rw [trimmed_of_no_space _ hsp]
  dsimp only
  rw [if_pos (Or.inl rfl), convertDigits_digits true ds hne hd hr]
  rfl

/-! ## The steps of `parse` -/

theorem parse_of_one_part (unit : biblioUnit) (value a : QString) (v : Int) (hne : value ≠ [])
    (hs : split (removeSpaces value) '.' = [a])
    (hlen : (a ++ List.replicate (decimals unit) '0').length ≤ 18) :
    parse unit value (some v)
      = ((toLongLong (a ++ List.replicate (decimals unit) '0')).2,
          some (toLongLong (a ++ List.replicate (decimals unit) '0')).1) := by
  have he : value.isEmpty = false := by cases value <;> simp_all
  have hnot : ¬ (a ++ List.replicate (decimals unit) '0').length > 18 := by omega
  unfold parse
  simp only [he, hs, leftJustified, List.length_cons, List.length_nil, List.headD_cons,
    Bool.false_eq_true, if_false, Nat.sub_zero, List.nil_append, Option.map_some']
  simp only [gt_iff_lt, Nat.lt_irrefl, Nat.not_lt_zero, if_false, Nat.reduceLT,
    Nat.zero_add, Nat.reduceAdd, List.length_nil, Nat.sub_zero, List.nil_append]
  rw [if_neg (by simpa using hlen)]

theorem parse_of_two_parts (unit : biblioUnit) (value a b : QString) (v : Int) (hne : value ≠ [])
    (hs : split (removeSpaces value) '.' = [a, b]) (hb : b.length ≤ decimals unit)
    (hlen : (a ++ leftJustified b (decimals unit) '0').length ≤ 18) :
    parse unit value (some v)
      = ((toLongLong (a ++ leftJustified b (decimals unit) '0')).2,
          some (toLongLong (a ++ leftJustified b (decimals unit) '0')).1) := by
  have he : value.isEmpty = false := by cases value <;> simp_all
  have hnot : ¬ (a ++ leftJustified b (decimals unit) '0').length > 18 := by omega
  have hb2 : ¬ b.length > decimals unit := by omega
  unfold parse
  simp only [he, hs, List.length_cons, List.length_nil, List.headD_cons,
    Bool.false_eq_true, if_false, Option.map_some']
  simp only [gt_iff_lt, Nat.lt_irrefl, if_false, Nat.reduceLT, Nat.zero_add, Nat.reduceAdd,
    if_true, List.getD_cons_succ, List.getD_cons_zero, hb2, hnot]

theorem parse_congr (unit : biblioUnit) (s t : QString) (vo : Option Int) (hs : s ≠ [])
    (ht : t ≠ []) (h : removeSpaces s = removeSpaces t) : parse unit s vo = parse unit t vo := by
  have e1 : s.isEmpty = false := by cases s <;> simp_all
  have e2 : t.isEmpty = false := by cases t <;> simp_all
  unfold parse
  rw [e1, e2, h]

theorem isDigit_zero_of_mem_replicate {k : Nat} {c : QChar} (h : c ∈ List.replicate k '0') :
    isDigit c = true := by
  rw [List.mem_replicate] at h
  rw [h.2]; decide

theorem padded_digits (w f : QString) (d : Nat) (hw : ∀ c ∈ w, isDigit c = true)
    (hf : ∀ c ∈ f, isDigit c = true) : ∀ c ∈ w ++ leftJustified f d '0', isDigit c = true := by
  intro c hc
  simp only [leftJustified, List.mem_append] at hc
  rcases hc with hc | hc | hc
  · exact hw c hc
  · exact hf c hc
  · exact isDigit_zero_of_mem_replicate hc

theorem padded_length (w f : QString) (d : Nat) (hf : f.length ≤ d) :
    (w ++ leftJustified f d '0').length = w.length + d := by
  simp only [leftJustified, List.length_append, List.length_replicate]
  omega

theorem padded_value (w f : QString) (d : Nat) (hf : f.length ≤ d) :
    digitsVal (w ++ leftJustified f d '0')
      = digitsVal w * 10 ^ d + digitsVal f * 10 ^ (d - f.length) := by
  have hl : (leftJustified f d '0').length = d := by
    simp only [leftJustified, List.length_append, List.length_replicate]; omega
  rw [digitsVal_append, hl]
  simp only [leftJustified]
  rw [digitsVal_append, digitsVal_zeros, List.length_replicate]
  ring

theorem int64_of_lt_pow18 {n k : Nat} (h : n < 10 ^ k) (hk : k ≤ 18) : (n : Int) ≤ INT64_MAX := by
  have h18 : (10 : Nat) ^ k ≤ 10 ^ 18 := Nat.pow_le_pow_right (by decide) hk
  have : n < 10 ^ 18 := lt_of_lt_of_le h h18
  unfold INT64_MAX
  omega

theorem toLongLong_signed (negative : Bool) (ds : QString) (hne : ds ≠ [])
    (hd : ∀ c ∈ ds, isDigit c = true) (hl : ds.length ≤ 18) :
    toLongLong (signText negative ++ ds)
      = ((if negative then -(digitsVal ds : Int) else (digitsVal ds : Int)), true) := by
  have hr := int64_of_lt_pow18 (digitsVal_lt ds hd) hl
  cases negative
  · simpa [signText] using toLongLong_digits ds hne hd hr
  · simpa [signText] using toLongLong_minus_digits ds hne hd hr

theorem signText_no_dot (negative : Bool) : '.' ∉ signText negative := by
  cases negative <;> decide

theorem removeSpaces_signText (negative : Bool) :
    removeSpaces (signText negative) = signText negative := by
  cases negative <;> decide

theorem not_dot_mem_digits {s : QString} (h : ∀ c ∈ s, isDigit c = true) : '.' ∉ s :=
  fun hm => isDigit_ne_dot (h _ hm) rfl

/-- Parsing a sign, a whole part and a fractional part that fits the unit. -/
theorem parse_whole_frac (unit : biblioUnit) (negative : Bool) (w f : QString) (v : Int)
    (hw : ∀ c ∈ w, isDigit c = true) (hwne : w ≠ []) (hf : ∀ c ∈ f, isDigit c = true)
    (hfl : f.length ≤ decimals unit)
    (hlen : (signText negative).length + w.length + decimals unit ≤ 18) :
    parse unit (signText negative ++ w ++ '.' :: f) (some v)
      = (true, some (if negative
          then -((digitsVal w * 10 ^ decimals unit
                  + digitsVal f * 10 ^ (decimals unit - f.length) : Nat) : Int)
          else ((digitsVal w * 10 ^ decimals unit
                  + digitsVal f * 10 ^ (decimals unit - f.length) : Nat) : Int))) := by
  have hne : signText negative ++ w ++ '.' :: f ≠ [] := by
    cases w with
    | nil => exact absurd rfl hwne
    | cons c cs => simp
  have hdot : '.' ∉ signText negative ++ w := by
    rw [List.mem_append, not_or]
    exact ⟨signText_no_dot negative, not_dot_mem_digits hw⟩
  have hrs : removeSpaces (signText negative ++ w ++ '.' :: f)
      = (signText negative ++ w) ++ '.' :: f := by
    rw [removeSpaces_append, removeSpaces_append, removeSpaces_signText, removeSpaces_digits w hw,
      removeSpaces_cons_keep (by decide) (by decide), removeSpaces_digits f hf]
  have hs : split (removeSpaces (signText negative ++ w ++ '.' :: f)) '.'
      = [signText negative ++ w, f] := by
    rw [hrs, split_append_sep '.' f _ hdot, split_of_not_mem '.' f (not_dot_mem_digits hf)]
  have hpl := padded_length w f (decimals unit) hfl
  have hnil : w ++ leftJustified f (decimals unit) '0' ≠ [] := by
    cases w with
    | nil => exact absurd rfl hwne
    | cons c cs => simp
  rw [parse_of_two_parts unit _ (signText negative ++ w) f v hne hs hfl
      (by rw [List.append_assoc, List.length_append, hpl]; omega),
    List.append_assoc,
    toLongLong_signed negative _ hnil (padded_digits w f _ hw hf) (by rw [hpl]; omega),
    padded_value w f _ hfl]

/-- Parsing a sign and a whole part, without a decimal marker. -/
theorem parse_whole_only (unit : biblioUnit) (negative : Bool) (w : QString) (v : Int)
    (hw : ∀ c ∈ w, isDigit c = true) (hwne : w ≠ [])
    (hlen : (signText negative).length + w.length + decimals unit ≤ 18) :
    parse unit (signText negative ++ w) (some v)
      = (true, some (if negative
          then -((digitsVal w * 10 ^ decimals unit : Nat) : Int)
          else ((digitsVal w * 10 ^ decimals unit : Nat) : Int))) := by
  have hne : signText negative ++ w ≠ [] := by
    cases w with
    | nil => exact absurd rfl hwne
    | cons c cs => simp
  have hdot : '.' ∉ signText negative ++ w := by
    rw [List.mem_append, not_or]
    exact ⟨signText_no_dot negative, not_dot_mem_digits hw⟩
  have hrs : removeSpaces (signText negative ++ w) = signText negative ++ w := by
    rw [removeSpaces_append, removeSpaces_signText, removeSpaces_digits w hw]
  have hs : split (removeSpaces (signText negative ++ w)) '.' = [signText negative ++ w] := by
    rw [hrs, split_of_not_mem '.' _ hdot]
  have hpl := padded_length w [] (decimals unit) (Nat.zero_le _)
  have hpv := padded_value w [] (decimals unit) (Nat.zero_le _)
  have hpd := padded_digits w [] (decimals unit) hw (by simp)
  simp only [leftJustified, List.nil_append, List.length_nil, Nat.sub_zero] at hpl hpv hpd
  have hnil : w ++ List.replicate (decimals unit) '0' ≠ [] := by
    cases w with
    | nil => exact absurd rfl hwne
    | cons c cs => simp
  rw [parse_of_one_part unit _ (signText negative ++ w) v hne hs
      (by rw [List.append_assoc, List.length_append, hpl]; omega),
    List.append_assoc,
    toLongLong_signed negative _ hnil hpd (by rw [hpl]; omega), hpv]
  simp [digitsVal]

/-! ## The shape of the output of `format` -/

theorem format_eq (unit : biblioUnit) (n : Int) (fPlus : Bool) (separators : SeparatorStyle)
    (justify : Bool) :
    format unit n fPlus separators justify
      = leadingSign n fPlus ++ integerText unit (absAmount n) separators justify
          ++ fractionText unit (absAmount n) := by
  unfold format leadingSign integerText fractionText absAmount insert
  dsimp only
  split_ifs <;> simp

theorem absAmount_eq (n : Int) (hlo : INT64_MIN < n) (hhi : n ≤ INT64_MAX) :
    absAmount n = (n.natAbs : Int) := by
  unfold absAmount wrapInt64
  unfold INT64_MIN at hlo
  unfold INT64_MAX at hhi
  split_ifs <;> omega

theorem factor_eq (unit : biblioUnit) : factor unit = ((10 ^ decimals unit : Nat) : Int) := by
  cases unit <;> rfl

theorem number_natCast (k : Nat) : number (k : Int) = Nat.toDigits 10 k := by
  have : ¬ ((k : Int) < 0) := by omega
  simp [number, this]

theorem integerText_natCast_removeSpaces (unit : biblioUnit) (m : Nat)
    (separators : SeparatorStyle) (justify : Bool) :
    removeSpaces (integerText unit (m : Int) separators justify)
      = Nat.toDigits 10 (m / 10 ^ decimals unit) := by
  have hq : removeSpaces (Nat.toDigits 10 (m / 10 ^ decimals unit))
      = Nat.toDigits 10 (m / 10 ^ decimals unit) :=
    removeSpaces_digits _ (all_isDigit_toDigits _)
  unfold integerText
  rw [factor_eq, ← Int.ofNat_tdiv, number_natCast]
  dsimp only
  split_ifs
  all_goals
    simp only [removeSpaces_groupLoop, rightJustified, removeSpaces_append,
      removeSpaces_replicate_space, List.nil_append, hq]

theorem fractionText_natCast (unit : biblioUnit) (m : Nat) :
    fractionText unit (m : Int)
      = if decimals unit > 0 then
          '.' :: rightJustified (Nat.toDigits 10 (m % 10 ^ decimals unit)) (decimals unit) '0'
        else [] := by
  unfold fractionText
  rw [factor_eq, ← Int.ofNat_tmod, number_natCast]

theorem length_toDigits_mod (d m : Nat) (hd : 0 < d) :
    (Nat.toDigits 10 (m % 10 ^ d)).length ≤ d := by
  obtain ⟨k, rfl⟩ : ∃ k, d = k + 1 := ⟨d - 1, by omega⟩
  exact length_toDigits_le k _ (Nat.mod_lt _ (by positivity))

theorem fraction_digits (d r : Nat) :
    ∀ c ∈ rightJustified (Nat.toDigits 10 r) d '0', isDigit c = true := by
  intro c hc
  simp only [rightJustified, List.mem_append] at hc
  rcases hc with hc | hc
  · exact isDigit_zero_of_mem_replicate hc
  · exact all_isDigit_toDigits r c hc

theorem fraction_length (d m : Nat) (hd : 0 < d) :
    (rightJustified (Nat.toDigits 10 (m % 10 ^ d)) d '0').length = d := by
  have := length_toDigits_mod d m hd
  simp only [rightJustified, List.length_append, List.length_replicate]
  omega

theorem fraction_value (d r : Nat) : digitsVal (rightJustified (Nat.toDigits 10 r) d '0') = r := by
  simp only [rightJustified]
  rw [digitsVal_append, digitsVal_zeros, digitsVal_toDigits]
  simp

/-! ## Formatting, then parsing -/

theorem quotient_length (unit : biblioUnit) (m : Nat) (hm : m ≤ 2100000000000000) :
    (Nat.toDigits 10 (m / 10 ^ decimals unit)).length + decimals unit ≤ 16 := by
  cases unit
  · have h : m / 10 ^ 8 < 10 ^ (7 + 1) := by norm_num; omega
    have := length_toDigits_le 7 _ h
    simp only [decimals]; omega
  · have h : m / 10 ^ 5 < 10 ^ (10 + 1) := by norm_num; omega
    have := length_toDigits_le 10 _ h
    simp only [decimals]; omega
  · have h : m / 10 ^ 2 < 10 ^ (13 + 1) := by norm_num; omega
    have := length_toDigits_le 13 _ h
    simp only [decimals]; omega
  · have h : m / 10 ^ 0 < 10 ^ (15 + 1) := by norm_num; omega
    have := length_toDigits_le 15 _ h
    simp only [decimals]; omega

theorem leadingSign_no_plus (n : Int) : leadingSign n false = signText (decide (n < 0)) := by
  unfold leadingSign signText
  by_cases h : n < 0 <;> simp [h]

theorem length_signText (negative : Bool) : (signText negative).length ≤ 1 := by
  cases negative <;> decide

theorem removeSpaces_fraction (unit : biblioUnit) (m : Nat) :
    removeSpaces (fractionText unit (m : Int)) = fractionText unit (m : Int) := by
  rw [fractionText_natCast]
  split_ifs
  · rw [removeSpaces_cons_keep (by decide) (by decide), removeSpaces_digits _ (fraction_digits _ _)]
  · rfl

/-- Whatever the grouping and the justification, with no plus sign `parse`
reads the output of `format` back as the amount, for every amount of
magnitude at most `MAX_MONEY`. -/
theorem parse_format_aux (unit : biblioUnit) (a : Int) (separators : SeparatorStyle)
    (justify : Bool) (v : Int) (hlo : -MAX_MONEY ≤ a) (hhi : a ≤ MAX_MONEY) :
    parse unit (format unit a false separators justify) (some v) = (true, some a) := by
  unfold MAX_MONEY at hlo hhi
  have habs : absAmount a = (a.natAbs : Int) :=
    absAmount_eq a (by unfold INT64_MIN; omega) (by unfold INT64_MAX; omega)
  have hm : a.natAbs ≤ 2100000000000000 := by omega
  have hWd := all_isDigit_toDigits (a.natAbs / 10 ^ decimals unit)
  have hWne := toDigits_ne_nil (a.natAbs / 10 ^ decimals unit)
  have hsl := length_signText (decide (a < 0))
  have hql := quotient_length unit a.natAbs hm
  -- the output of format and the text without grouping and padding
  have hrs : removeSpaces (format unit a false separators justify)
      = removeSpaces (signText (decide (a < 0)) ++ Nat.toDigits 10 (a.natAbs / 10 ^ decimals unit)
          ++ fractionText unit (a.natAbs : Int)) := by
    rw [format_eq, habs, leadingSign_no_plus]
    simp only [removeSpaces_append, integerText_natCast_removeSpaces]
    rw [removeSpaces_digits _ hWd]
  have hT : signText (decide (a < 0)) ++ Nat.toDigits 10 (a.natAbs / 10 ^ decimals unit)
      ++ fractionText unit (a.natAbs : Int) ≠ [] := by
    intro h
    simp only [List.append_eq_nil] at h
    exact hWne h.1.2
  have hF : format unit a false separators justify ≠ [] := by
    intro h
    rw [h, removeSpaces_append, removeSpaces_append, removeSpaces_digits _ hWd] at hrs
    have : removeSpaces ([] : QString) = [] := rfl
    rw [this] at hrs
    have h2 := hrs.symm
    simp only [List.append_eq_nil] at h2
    exact hWne h2.1.2
  rw [parse_congr unit _ _ (some v) hF hT hrs, fractionText_natCast]
  have hsign : (if decide (a < 0) = true then -((a.natAbs : Nat) : Int) else ((a.natAbs : Nat) : Int))
      = a := by
    by_cases h : a < 0
    · simp only [h, decide_True, if_true]; omega
    · simp only [h, decide_False, Bool.false_eq_true, if_false]; omega
  by_cases hd : decimals unit > 0
  · rw [if_pos hd,
      parse_whole_frac unit (decide (a < 0)) _ _ v hWd hWne (fraction_digits _ _)
        (le_of_eq (fraction_length _ _ hd)) (by omega),
      digitsVal_toDigits, fraction_value, fraction_length _ _ hd, Nat.sub_self, pow_zero,
      Nat.mul_one, Nat.div_add_mod', hsign]
  · have hd0 : decimals unit = 0 := by omega
    rw [if_neg hd, List.append_nil,
      parse_whole_only unit (decide (a < 0)) _ v hWd hWne (by omega), digitsVal_toDigits, hd0]
    simp only [pow_zero, Nat.div_one, Nat.mul_one]
    rw [hsign]

/-! ## `parse` in terms of its steps -/

theorem parse_eq (unit : biblioUnit) (value : QString) (vo : Option Int) :
    parse unit value vo
      = if rejectedBeforeConversion unit value = true then (false, vo)
        else ((toLongLong (parseStr unit value)).2,
          vo.map (fun _ => (toLongLong (parseStr unit value)).1)) := by
  unfold parse rejectedBeforeConversion parseStr fractionPart wholePart parseParts
  generalize split (removeSpaces value) '.' = parts
  by_cases h1 : value.isEmpty = true
  · simp [h1]
  · by_cases h2 : parts.length > 2
    · simp [h1, h2]
    · by_cases h3 : (if parts.length > 1 then parts.getD 1 [] else []).length > decimals unit
      · simp only [h1, h2, h3, if_true, if_false, decide_True, Bool.or_true, Bool.true_or,
          ite_self]
      · by_cases h4 : (parts.headD [] ++ leftJustified
            (if parts.length > 1 then parts.getD 1 [] else []) (decimals unit) '0').length > 18
        · simp only [h1, h2, h3, h4, if_true, if_false, decide_True, Bool.or_true, ite_self]
        · simp only [h1, h2, h3, h4, if_false, decide_False, Bool.or_false, Bool.false_eq_true]

theorem parse_rejected (unit : biblioUnit) (value : QString) (vo : Option Int)
    (h : rejectedBeforeConversion unit value = true) : parse unit value vo = (false, vo) := by
  rw [parse_eq, if_pos h]

theorem parse_converted (unit : biblioUnit) (value : QString) (vo : Option Int)
    (h : rejectedBeforeConversion unit value = false) :
    parse unit value vo = ((toLongLong (parseStr unit value)).2,
          vo.map (fun _ => (toLongLong (parseStr unit value)).1)) := by
  rw [parse_eq, h]
  simp

/-! ## Characters that the conversion refuses -/

theorem mem_split_parts (sep c : QChar) (hc : c ≠ sep) : ∀ s : QString, c ∈ s →
    ∃ p ∈ split s sep, c ∈ p := by
  intro s
  induction s with
  | nil => intro h; simp at h
  | cons d ds ih =>
    intro h
    by_cases hd : d = sep
    · have hcd : c ≠ d := by rw [hd]; exact hc
      have hmem : c ∈ ds := by
        rcases List.mem_cons.mp h with e | e
        · exact absurd e hcd
        · exact e
      obtain ⟨p, hp, hcp⟩ := ih hmem
      exact ⟨p, by simp [split, hd, hp], hcp⟩
    · cases hsp : split ds sep with
      | nil => exact absurd hsp (split_ne_nil ds sep)
      | cons p0 ps =>
        have hsplit : split (d :: ds) sep = (d :: p0) :: ps := by simp [split, hd, hsp]
        rw [hsplit]
        rcases List.mem_cons.mp h with e | e
        · exact ⟨d :: p0, by simp, by simp [e]⟩
        · obtain ⟨p, hp, hcp⟩ := ih e
          rw [hsp] at hp
          rcases List.mem_cons.mp hp with e2 | e2
          · exact ⟨d :: p0, by simp, by rw [e2] at hcp; simp [hcp]⟩
          · exact ⟨p, by simp [e2], hcp⟩

theorem mem_parseStr (unit : biblioUnit) (text : QString) (c : QChar)
    (hc : c ∈ removeSpaces text) (hdot : c ≠ '.') (hp : (parseParts text).length ≤ 2) :
    c ∈ parseStr unit text := by
  obtain ⟨p, hpm, hcp⟩ := mem_split_parts '.' c hdot _ hc
  unfold parseStr wholePart fractionPart leftJustified
  unfold parseParts at hp ⊢
  generalize split (removeSpaces text) '.' = parts at hp hpm
  match parts, hp, hpm with
  | [a], _, hpm =>
    simp only [List.mem_singleton] at hpm
    subst hpm
    simp [hcp]
  | [a, b], _, hpm =>
    simp only [List.mem_cons, List.mem_singleton, List.not_mem_nil, or_false] at hpm
    rcases hpm with e | e
    · subst e; simp [hcp]
    · subst e; simp [hcp]
  | _ :: _ :: _ :: _, hp, _ => simp at hp

theorem toLongLong_refuses (s : QString) (c : QChar) (hc : c ∈ s) (hd : isDigit c = false)
    (hplus : c ≠ '+') (hminus : c ≠ '-') (hminus2 : c ≠ MINUS_SIGN) (hsp : isSpace c = false) :
    (toLongLong s).2 = false := by
  have hm := mem_trimmed hc hsp
  unfold toLongLong
  cases ht : trimmed s with
  | nil => rfl
  | cons d ds =>
    rw [ht] at hm
    dsimp only
    split_ifs with h1 h2
    · have : c ∈ ds := by
        rcases List.mem_cons.mp hm with e | e
        · rcases h1 with h1 | h1
          · exact absurd (e.trans h1) hminus
          · exact absurd (e.trans h1) hminus2
        · exact e
      rw [convertDigits_not_digit true ds c this hd]
    · have : c ∈ ds := by
        rcases List.mem_cons.mp hm with e | e
        · exact absurd (e.trans h2) hplus
        · exact e
      rw [convertDigits_not_digit false ds c this hd]
    · rw [convertDigits_not_digit false (d :: ds) c hm hd]

/-! ## Characters of the output of `format` -/

theorem mem_insert {s : QString} {i : Nat} {ch c : QChar} (h : c ∈ insert s i ch) :
    c ∈ s ∨ c = ch := by
  simp only [insert, List.mem_append, List.mem_cons] at h
  rcases h with h | h | h
  · exact Or.inl (List.mem_of_mem_take h)
  · exact Or.inr h
  · exact Or.inl (List.mem_of_mem_drop h)

theorem mem_groupLoop (q_size : Nat) (c : QChar) : ∀ (fuel i : Nat) (s : QString),
    c ∈ groupLoop q_size fuel i s → c ∈ s ∨ c = thin_sp := by
  intro fuel
  induction fuel with
  | zero => intro i s h; exact Or.inl h
  | succ fuel ih =>
    intro i s h
    simp only [groupLoop] at h
    split_ifs at h
    · rcases ih _ _ h with h2 | h2
      · exact mem_insert h2
      · exact Or.inr h2
    · exact Or.inl h

theorem mem_integerText (unit : biblioUnit) (m : Nat) (separators : SeparatorStyle)
    (justify : Bool) (c : QChar) (h : c ∈ integerText unit (m : Int) separators justify) :
    isDigit c = true ∨ c = ' ' ∨ c = thin_sp := by
  have key : ∀ q1 : QString, (∀ x ∈ q1, isDigit x = true ∨ x = ' ') →
      c ∈ (if separators = SeparatorStyle.ALWAYS
              ∨ (separators = SeparatorStyle.STANDARD ∧ q1.length > 4)
            then groupLoop q1.length q1.length 3 q1 else q1) →
      isDigit c = true ∨ c = ' ' ∨ c = thin_sp := by
    intro q1 hq hc
    split_ifs at hc
    · rcases mem_groupLoop _ c _ _ _ hc with h2 | h2
      · rcases hq c h2 with h3 | h3
        · exact Or.inl h3
        · exact Or.inr (Or.inl h3)
      · exact Or.inr (Or.inr h2)
    · rcases hq c hc with h3 | h3
      · exact Or.inl h3
      · exact Or.inr (Or.inl h3)
  unfold integerText at h
  rw [factor_eq, ← Int.ofNat_tdiv, number_natCast] at h
  refine key _ ?_ h
  intro x hx
  cases justify
  · exact Or.inl (all_isDigit_toDigits _ x hx)
  · simp only [rightJustified, if_true, List.mem_append] at hx
    rcases hx with hx | hx
    · exact Or.inr (List.mem_replicate.mp hx).2
    · exact Or.inl (all_isDigit_toDigits _ x hx)

/-- The iteration bound of `groupLoop` is never what stops the loop: once
`q_size ≤ i + 3 * fuel`, more fuel gives the same string. -/
theorem groupLoop_enough_fuel (q_size : Nat) : ∀ (fuel i : Nat) (s : QString) (extra : Nat),
    q_size ≤ i + 3 * fuel →
    groupLoop q_size (fuel + extra) i s = groupLoop q_size fuel i s := by
  intro fuel
  induction fuel with
  | zero =>
    intro i s extra h
    cases extra with
    | zero => rfl
    | succ e =>
      have hi : ¬ i < q_size := by omega
      simp [groupLoop, hi]
  | succ fuel ih =>
    intro i s extra h
    have e : fuel + 1 + extra = (fuel + extra) + 1 := by omega
    rw [e]
    simp only [groupLoop]
    split_ifs
    · exact ih _ _ _ (by omega)
    · rfl

theorem integerText_ne_nil (unit : biblioUnit) (m : Nat) (separators : SeparatorStyle)
    (justify : Bool) : integerText unit (m : Int) separators justify ≠ [] := by
  intro h
  have := integerText_natCast_removeSpaces unit m separators justify
  rw [h] at this
  exact toDigits_ne_nil _ this.symm

theorem mem_fractionText (unit : biblioUnit) (m : Nat) (c : QChar)
    (h : c ∈ fractionText unit (m : Int)) : isDigit c = true ∨ c = '.' := by
  rw [fractionText_natCast] at h
  split_ifs at h
  · rcases List.mem_cons.mp h with e | e
    · exact Or.inr e
    · exact Or.inl (fraction_digits _ _ c e)
  · simp at h

theorem not_sign_of_body {c : QChar}
    (h : isDigit c = true ∨ c = ' ' ∨ c = thin_sp ∨ c = '.') : c ≠ '-' ∧ c ≠ '+' := by
  rcases h with h | h | h | h
  · exact ⟨isDigit_ne_minus h, isDigit_ne_plus h⟩
  · subst h; decide
  · subst h; decide
  · subst h; decide

/-! ## Properties of `parse` and `format` -/

/-- C1: round trip.  For every unit and every amount `a` with
`-MAX_MONEY ≤ a ≤ MAX_MONEY`, parsing the text that `format` produces without
plus sign, grouping and justification succeeds and stores exactly `a`,
whatever the output cell held before. -/
theorem parse_format_roundtrip (unit : biblioUnit) (a v : Int) (hlo : -MAX_MONEY ≤ a)
    (hhi : a ≤ MAX_MONEY) :
    parse unit (format unit a false SeparatorStyle.NEVER false) (some v) = (true, some a) :=
  parse_format_aux unit a SeparatorStyle.NEVER false v hlo hhi

theorem parse_format_roundtrip_witness :
    (-MAX_MONEY ≤ (-2099999999999999 : Int) ∧ (-2099999999999999 : Int) ≤ MAX_MONEY) ∧
      parse biblioUnit.mLEX
          (format biblioUnit.mLEX (-2099999999999999) false SeparatorStyle.NEVER false) (some 7)
        = (true, some (-2099999999999999)) :=
  ⟨by decide,
    parse_format_roundtrip biblioUnit.mLEX (-2099999999999999) 7 (by decide) (by decide)⟩

/-- C2: grouping and padding do not change the parsed value.  For every
unit, every amount `a` with `-MAX_MONEY ≤ a ≤ MAX_MONEY`, every separator
style and either value of `justify`, parsing `format unit a false style
justify` succeeds and stores `a`. -/
theorem parse_format_grouped (unit : biblioUnit) (a v : Int) (separators : SeparatorStyle)
    (justify : Bool) (hlo : -MAX_MONEY ≤ a) (hhi : a ≤ MAX_MONEY) :
    parse unit (format unit a false separators justify) (some v) = (true, some a) :=
  parse_format_aux unit a separators justify v hlo hhi

theorem parse_format_grouped_witness :
    (-MAX_MONEY ≤ (-123456789012345 : Int) ∧ (-123456789012345 : Int) ≤ MAX_MONEY) ∧
      parse biblioUnit.LEX
          (format biblioUnit.LEX (-123456789012345) false SeparatorStyle.ALWAYS true) (some 7)
        = (true, some (-123456789012345)) :=
  ⟨by decide,
    parse_format_grouped biblioUnit.LEX (-123456789012345) 7 SeparatorStyle.ALWAYS true
      (by decide) (by decide)⟩

/-- C3: exact value of `parse` on well-formed text.  For a non-empty digit
string `w` and a digit string `f` with `f.length ≤ decimals unit` and
`w.length + decimals unit ≤ 18`, `parse` succeeds on `w.f` (and on `w` alone
when `f` is empty) and stores `w * factor + f * 10 ^ (decimals - f.length)`;
in particular `parse(LEX, "1.5")` stores 150000000. -/
theorem parse_exact_value (unit : biblioUnit) (w f : QString) (v : Int) (hwne : w ≠ [])
    (hw : ∀ c ∈ w, isDigit c = true) (hf : ∀ c ∈ f, isDigit c = true)
    (hfl : f.length ≤ decimals unit) (hlen : w.length + decimals unit ≤ 18) :
    parse unit (w ++ '.' :: f) (some v)
        = (true, some ((digitsVal w : Int) * factor unit
            + (digitsVal f : Int) * 10 ^ (decimals unit - f.length)))
      ∧ (f = [] → parse unit w (some v)
        = (true, some ((digitsVal w : Int) * factor unit
            + (digitsVal f : Int) * 10 ^ (decimals unit - f.length))))
      ∧ parse biblioUnit.LEX ['1', '.', '5'] (some v) = (true, some 150000000) := by
  refine ⟨?_, ?_, ?_⟩
  · have h := parse_whole_frac unit false w f v hw hwne hf hfl (by simpa [signText] using hlen)
    simp only [signText, Bool.false_eq_true, if_false, List.nil_append] at h
    rw [h, factor_eq]
    push_cast
    rfl
  · intro hnil
    subst hnil
    have h := parse_whole_only unit false w v hw hwne (by simpa [signText] using hlen)
    simp only [signText, Bool.false_eq_true, if_false, List.nil_append] at h
    rw [h, factor_eq]
    push_cast
    simp [digitsVal]
  · have h := parse_whole_frac biblioUnit.LEX false ['1'] ['5'] v (by decide) (by decide)
      (by decide) (by decide) (by decide)
    simp only [signText, Bool.false_eq_true, if_false, List.nil_append] at h
    exact h

theorem parse_exact_value_witness :
    (['1', '2'] ≠ ([] : QString) ∧ (∀ c ∈ ['1', '2'], isDigit c = true)
        ∧ (∀ c ∈ ['0', '5'], isDigit c = true)
        ∧ ['0', '5'].length ≤ decimals biblioUnit.mLEX
        ∧ ['1', '2'].length + decimals biblioUnit.mLEX ≤ 18) ∧
      parse biblioUnit.mLEX (['1', '2'] ++ '.' :: ['0', '5']) (some 7)
        = (true, some ((digitsVal ['1', '2'] : Int) * factor biblioUnit.mLEX
            + (digitsVal ['0', '5'] : Int) * 10 ^ (decimals biblioUnit.mLEX - ['0', '5'].length))) :=
  ⟨by decide,
    (parse_exact_value biblioUnit.mLEX ['1', '2'] ['0', '5'] 7 (by decide) (by decide) (by decide)
      (by decide) (by decide)).1⟩

/-- C4: excess precision is rejected.  When the text without spaces is
`a.b` with a single decimal marker and `b` has more than `decimals unit`
characters, `parse` returns false; in particular "12.5" is rejected for
SAT. -/
theorem parse_excess_precision (unit : biblioUnit) (text a b : QString) (vo : Option Int)
    (hs : removeSpaces text = a ++ '.' :: b) (ha : '.' ∉ a) (hb : '.' ∉ b)
    (hlen : b.length > decimals unit) :
    (parse unit text vo).1 = false
      ∧ (parse biblioUnit.SAT ['1', '2', '.', '5'] vo).1 = false := by
  have hparts : parseParts text = [a, b] := by
    unfold parseParts
    rw [hs, split_append_sep '.' b a ha, split_of_not_mem '.' b hb]
  have hfrac : fractionPart text = b := by
    unfold fractionPart
    rw [hparts]
    rfl
  have hrej : rejectedBeforeConversion unit text = true := by
    unfold rejectedBeforeConversion
    rw [hfrac]
    simp [hlen]
  constructor
  · rw [parse_rejected unit text vo hrej]
  · rw [parse_rejected biblioUnit.SAT _ vo (by decide)]

theorem parse_excess_precision_witness :
    (removeSpaces ['1', ' ', '0', '.', '1', '2', '3', '4', '5', '6', '7', '8', '9']
          = ['1', '0'] ++ '.' :: ['1', '2', '3', '4', '5', '6', '7', '8', '9']
        ∧ '.' ∉ ['1', '0'] ∧ '.' ∉ ['1', '2', '3', '4', '5', '6', '7', '8', '9']
        ∧ ['1', '2', '3', '4', '5', '6', '7', '8', '9'].length > decimals biblioUnit.LEX) ∧
      (parse biblioUnit.LEX ['1', ' ', '0', '.', '1', '2', '3', '4', '5', '6', '7', '8', '9']
        (some 7)).1 = false :=
  ⟨by decide,
    (parse_excess_precision biblioUnit.LEX
      ['1', ' ', '0', '.', '1', '2', '3', '4', '5', '6', '7', '8', '9'] ['1', '0']
      ['1', '2', '3', '4', '5', '6', '7', '8', '9'] (some 7) (by decide) (by decide) (by decide)
      (by decide)).1⟩

/-- C6, counterexample: for LEX the text "123456789.123456789" gives an `S`
of exactly 18 decimal digits, yet `parse` returns false, because the
fractional part has 9 characters; and "1234567890.12345678.9" gives an `S` of
18 digits too and is rejected for its two decimal markers. -/
theorem parse_eighteen_digits_rejected :
    ((parseStr biblioUnit.LEX "123456789.123456789".toList).length = 18
        ∧ (∀ c ∈ parseStr biblioUnit.LEX "123456789.123456789".toList, isDigit c = true)
        ∧ (parse biblioUnit.LEX "123456789.123456789".toList (some 7)).1 = false)
      ∧ ((parseStr biblioUnit.LEX "1234567890.12345678.9".toList).length = 18
        ∧ (∀ c ∈ parseStr biblioUnit.LEX "1234567890.12345678.9".toList, isDigit c = true)
        ∧ (parse biblioUnit.LEX "1234567890.12345678.9".toList (some 7)).1 = false) := by
  decide

theorem parseStr_nil_length (unit : biblioUnit) : (parseStr unit []).length ≤ 8 := by
  cases unit <;> decide

/-- C6, amended: with `S = parseStr unit text` (the integer part followed by
the fractional part padded with zeros to `decimals unit` characters), if `S`
has 19 or more characters `parse` returns false whatever the text; if the
text has at most one decimal marker, its fractional part has at most
`decimals unit` characters and `S` is exactly 18 decimal digits, `parse`
succeeds and stores the number `S` denotes. -/
theorem parse_length_boundary (unit : biblioUnit) (text : QString) (v : Int) :
    (19 ≤ (parseStr unit text).length → (parse unit text (some v)).1 = false)
      ∧ ((parseParts text).length ≤ 2 → (fractionPart text).length ≤ decimals unit →
          (parseStr unit text).length = 18 → (∀ c ∈ parseStr unit text, isDigit c = true) →
          parse unit text (some v) = (true, some (digitsVal (parseStr unit text) : Int))) := by
  constructor
  · intro h
    have hrej : rejectedBeforeConversion unit text = true := by
      unfold rejectedBeforeConversion
      have : decide ((parseStr unit text).length > 18) = true := by simpa using h
      rw [this]
      simp
    rw [parse_rejected unit text _ hrej]
  · intro hp hf hl hd
    have hne : text.isEmpty = false := by
      cases text with
      | nil => have := parseStr_nil_length unit; omega
      | cons c cs => rfl
    have hrej : rejectedBeforeConversion unit text = false := by
      unfold rejectedBeforeConversion
      have h1 : decide ((parseParts text).length > 2) = false := by simpa using hp
      have h2 : decide ((fractionPart text).length > decimals unit) = false := by simpa using hf
      have h3 : decide ((parseStr unit text).length > 18) = false := by simp [hl]
      rw [hne, h1, h2, h3]
      rfl
    have hnil : parseStr unit text ≠ [] := by
      intro e
      rw [e] at hl
      simp at hl
    rw [parse_converted unit text _ hrej,
      toLongLong_digits _ hnil hd (int64_of_lt_pow18 (digitsVal_lt _ hd) (le_of_eq hl))]
    rfl

theorem parse_length_boundary_witness :
    ((parseParts "9999999999.99999999".toList).length ≤ 2
        ∧ (fractionPart "9999999999.99999999".toList).length ≤ decimals biblioUnit.LEX
        ∧ (parseStr biblioUnit.LEX "9999999999.99999999".toList).length = 18
        ∧ (∀ c ∈ parseStr biblioUnit.LEX "9999999999.99999999".toList, isDigit c = true)) ∧
      parse biblioUnit.LEX "9999999999.99999999".toList (some 7)
        = (true, some (digitsVal (parseStr biblioUnit.LEX "9999999999.99999999".toList) : Int)) :=
  ⟨by decide,
    (parse_length_boundary biblioUnit.LEX "9999999999.99999999".toList 7).2 (by decide)
      (by decide) (by decide) (by decide)⟩

/-- C7: `parse` returns false on the empty text and on every text with two
or more decimal markers. -/
theorem parse_empty_or_two_markers (unit : biblioUnit) (text : QString) (vo : Option Int)
    (h : text = [] ∨ 2 ≤ text.count '.') : (parse unit text vo).1 = false := by
  have hrej : rejectedBeforeConversion unit text = true := by
    unfold rejectedBeforeConversion
    rcases h with h | h
    · rw [h]; rfl
    · have : decide ((parseParts text).length > 2) = true := by
        unfold parseParts
        rw [length_split, count_dot_removeSpaces]
        exact decide_eq_true (by omega)
      rw [this]
      simp
  rw [parse_rejected unit text vo hrej]

theorem parse_empty_or_two_markers_witness :
    (['1', '.', '2', '.', '3'] = ([] : QString) ∨ 2 ≤ ['1', '.', '2', '.', '3'].count '.') ∧
      (parse biblioUnit.LEX ['1', '.', '2', '.', '3'] (some 7)).1 = false :=
  ⟨by decide,
    parse_empty_or_two_markers biblioUnit.LEX ['1', '.', '2', '.', '3'] (some 7) (by decide)⟩

/-- C8, counterexample: the minus sign U+2212 is no decimal digit, none of
`.`, `+`, `-`, and no whitespace, yet the text made of U+2212 and `1` is
accepted for LEX and stores -100000000, because the integer conversion reads
U+2212 as a minus sign. -/
theorem parse_accepts_minus_sign :
    (MINUS_SIGN ∈ [MINUS_SIGN, '1'] ∧ isDigit MINUS_SIGN = false ∧ MINUS_SIGN ≠ '.'
        ∧ MINUS_SIGN ≠ '+' ∧ MINUS_SIGN ≠ '-' ∧ isSpace MINUS_SIGN = false)
      ∧ parse biblioUnit.LEX [MINUS_SIGN, '1'] (some 7) = (true, some (-100000000)) := by
  decide

/-- C8, amended: non-numeric input is rejected.  If the text contains a
character that is not a decimal digit, not `.`, `+`, `-` or the minus sign
U+2212, and not whitespace (which includes the space and the thin-space
grouping separator), `parse` returns false. -/
theorem parse_non_numeric (unit : biblioUnit) (text : QString) (vo : Option Int) (c : QChar)
    (hc : c ∈ text) (hd : isDigit c = false) (hdot : c ≠ '.') (hplus : c ≠ '+')
    (hminus : c ≠ '-') (hminus2 : c ≠ MINUS_SIGN) (hsp : isSpace c = false) :
    (parse unit text vo).1 = false := by
  by_cases hr : rejectedBeforeConversion unit text = true
  · rw [parse_rejected unit text vo hr]
  · have hr2 : rejectedBeforeConversion unit text = false := by simpa using hr
    have hparts : (parseParts text).length ≤ 2 := by
      unfold rejectedBeforeConversion at hr2
      simp only [Bool.or_eq_false_iff, decide_eq_false_iff_not] at hr2
      omega
    have h1 : c ≠ ' ' := by rintro rfl; revert hsp; decide
    have h2 : c ≠ thin_sp := by rintro rfl; revert hsp; decide
    have hmem : c ∈ parseStr unit text :=
      mem_parseStr unit text c (mem_removeSpaces.mpr ⟨hc, h1, h2⟩) hdot hparts
    rw [parse_converted unit text vo hr2]
    exact toLongLong_refuses _ c hmem hd hplus hminus hminus2 hsp

theorem parse_non_numeric_witness :
    ('x' ∈ ['1', '2', 'x', '.', '5'] ∧ isDigit 'x' = false ∧ 'x' ≠ '.' ∧ 'x' ≠ '+' ∧ 'x' ≠ '-'
        ∧ 'x' ≠ MINUS_SIGN ∧ isSpace 'x' = false) ∧
      (parse biblioUnit.LEX ['1', '2', 'x', '.', '5'] (some 7)).1 = false :=
  ⟨by decide,
    parse_non_numeric biblioUnit.LEX ['1', '2', 'x', '.', '5'] (some 7) 'x' (by decide)
      (by decide) (by decide) (by decide) (by decide) (by decide) (by decide)⟩

/-- C9: for every unit, `factor unit = 10 ^ decimals unit`: 100000000 = 10^8
for LEX, 100000 = 10^5 for mLEX, 100 = 10^2 for uLEX and 1 = 10^0 for SAT. -/
theorem factor_eq_pow_decimals (unit : biblioUnit) :
    factor unit = 10 ^ decimals unit
      ∧ (factor biblioUnit.LEX = 100000000 ∧ decimals biblioUnit.LEX = 8)
      ∧ (factor biblioUnit.mLEX = 100000 ∧ decimals biblioUnit.mLEX = 5)
      ∧ (factor biblioUnit.uLEX = 100 ∧ decimals biblioUnit.uLEX = 2)
      ∧ (factor biblioUnit.SAT = 1 ∧ decimals biblioUnit.SAT = 0) := by
  cases unit <;> decide

/-- C10: sign rule of `format`.  For every amount above the 64-bit minimum,
the output begins with `-` exactly when the amount is negative, begins with
`+` exactly when `fPlus` is set and the amount is positive, and contains
neither `+` nor `-` when the amount is 0. -/
theorem format_sign_rule (unit : biblioUnit) (a : Int) (fPlus : Bool)
    (separators : SeparatorStyle) (justify : Bool) (hlo : INT64_MIN < a) (hhi : a ≤ INT64_MAX) :
    ((format unit a fPlus separators justify).head? = some '-' ↔ a < 0)
      ∧ ((format unit a fPlus separators justify).head? = some '+' ↔ (fPlus = true ∧ 0 < a))
      ∧ (a = 0 → '+' ∉ format unit a fPlus separators justify
          ∧ '-' ∉ format unit a fPlus separators justify) := by
  have hbody : ∀ c ∈ integerText unit (a.natAbs : Int) separators justify
      ++ fractionText unit (a.natAbs : Int), c ≠ '-' ∧ c ≠ '+' := by
    intro c hc
    apply not_sign_of_body
    rcases List.mem_append.mp hc with h | h
    · rcases mem_integerText unit _ separators justify c h with h2 | h2 | h2
      · exact Or.inl h2
      · exact Or.inr (Or.inl h2)
      · exact Or.inr (Or.inr (Or.inl h2))
    · rcases mem_fractionText unit _ c h with h2 | h2
      · exact Or.inl h2
      · exact Or.inr (Or.inr (Or.inr h2))
  have hne := integerText_ne_nil unit a.natAbs separators justify
  rw [format_eq, absAmount_eq a hlo hhi, List.append_assoc]
  cases hI : integerText unit (a.natAbs : Int) separators justify with
  | nil => exact absurd hI hne
  | cons d ds =>
    rw [hI] at hbody
    have hd := hbody d (by simp)
    unfold leadingSign
    by_cases hneg : a < 0
    · have hpos : ¬ (0 < a) := by omega
      have hz : a ≠ 0 := by omega
      simp [hneg, hpos, hz]
    · by_cases hplus : fPlus = true ∧ a > 0
      · have hz : a ≠ 0 := by omega
        simp [hneg, hplus, hz]
      · rw [if_neg hneg, if_neg hplus]
        refine ⟨?_, ?_, ?_⟩
        · simp [hneg, hd.1]
        · simp only [List.nil_append, List.cons_append, List.head?_cons, Option.some.injEq]
          constructor
          · intro e; exact absurd e hd.2
          · intro e; exact absurd e hplus
        · intro _
          simp only [List.nil_append]
          exact ⟨fun hm => (hbody _ hm).2 rfl, fun hm => (hbody _ hm).1 rfl⟩

theorem format_sign_rule_witness :
    (INT64_MIN < (-5 : Int) ∧ (-5 : Int) ≤ INT64_MAX) ∧
      (((format biblioUnit.LEX (-5) true SeparatorStyle.ALWAYS true).head? = some '-'
          ↔ (-5 : Int) < 0)
        ∧ ((format biblioUnit.LEX (-5) true SeparatorStyle.ALWAYS true).head? = some '+'
          ↔ (true = true ∧ (0 : Int) < -5))
        ∧ ((-5 : Int) = 0 → '+' ∉ format biblioUnit.LEX (-5) true SeparatorStyle.ALWAYS true
          ∧ '-' ∉ format biblioUnit.LEX (-5) true SeparatorStyle.ALWAYS true)) :=
  ⟨by decide,
    format_sign_rule biblioUnit.LEX (-5) true SeparatorStyle.ALWAYS true (by decide) (by decide)⟩

/-! ## The output of `format` without grouping -/

theorem natAbs_factor (unit : biblioUnit) : (factor unit).natAbs = 10 ^ decimals unit := by
  cases unit <;> rfl

theorem format_never (unit : biblioUnit) (a : Int) (fPlus justify : Bool)
    (hlo : INT64_MIN < a) (hhi : a ≤ INT64_MAX) :
    format unit a fPlus SeparatorStyle.NEVER justify
      = leadingSign a fPlus
        ++ (if justify = true then
              rightJustified (Nat.toDigits 10 (a.natAbs / 10 ^ decimals unit))
                (MAX_DIGITS_LEX - decimals unit) ' '
            else Nat.toDigits 10 (a.natAbs / 10 ^ decimals unit))
        ++ (if decimals unit > 0 then
              '.' :: rightJustified (Nat.toDigits 10 (a.natAbs % 10 ^ decimals unit))
                (decimals unit) '0'
            else []) := by
  rw [format_eq, absAmount_eq a hlo hhi, fractionText_natCast]
  unfold integerText
  rw [factor_eq, ← Int.ofNat_tdiv, number_natCast]
  simp

/-- C11: exact text of `format` without grouping.  For `|a| ≤ MAX_MONEY` the
output with no plus sign, no grouping and no justification is a minus sign
for a negative amount, the decimal digits of `|a| / factor`, and, when the
unit has decimals, a `.` and `|a| % factor` left-padded with `0` to exactly
`decimals` digits; the SAT output has no decimal marker. -/
theorem format_exact_text (unit : biblioUnit) (a : Int) (hlo : -MAX_MONEY ≤ a)
    (hhi : a ≤ MAX_MONEY) :
    format unit a false SeparatorStyle.NEVER false
        = (if a < 0 then ['-'] else [])
          ++ Nat.toDigits 10 (a.natAbs / (factor unit).natAbs)
          ++ (if decimals unit > 0 then
                '.' :: (List.replicate
                    (decimals unit - (Nat.toDigits 10 (a.natAbs % (factor unit).natAbs)).length) '0'
                  ++ Nat.toDigits 10 (a.natAbs % (factor unit).natAbs))
              else [])
      ∧ (decimals unit > 0 →
          (List.replicate
              (decimals unit - (Nat.toDigits 10 (a.natAbs % (factor unit).natAbs)).length) '0'
            ++ Nat.toDigits 10 (a.natAbs % (factor unit).natAbs)).length = decimals unit)
      ∧ '.' ∉ format biblioUnit.SAT a false SeparatorStyle.NEVER false
      ∧ format biblioUnit.LEX 150000000 false SeparatorStyle.STANDARD false
          = ['1', '.', '5', '0', '0', '0', '0', '0', '0', '0']
      ∧ format biblioUnit.LEX (-100000000) false SeparatorStyle.STANDARD false
          = ['-', '1', '.', '0', '0', '0', '0', '0', '0', '0', '0'] := by
  unfold MAX_MONEY at hlo hhi
  have h1 : INT64_MIN < a := by unfold INT64_MIN; omega
  have h2 : a ≤ INT64_MAX := by unfold INT64_MAX; omega
  refine ⟨?_, ?_, ?_, by decide, by decide⟩
  · rw [format_never unit a false false h1 h2, natAbs_factor]
    unfold leadingSign rightJustified
    simp
  · intro hd
    rw [natAbs_factor]
    exact fraction_length (decimals unit) a.natAbs hd
  · rw [format_never biblioUnit.SAT a false false h1 h2]
    have hdig := all_isDigit_toDigits (a.natAbs / 10 ^ decimals biblioUnit.SAT)
    intro hm
    simp only [leadingSign, decimals, Nat.lt_irrefl, if_false, List.append_nil, gt_iff_lt,
      Bool.false_eq_true, false_and, List.mem_append] at hm hdig
    rcases hm with hm | hm
    · split_ifs at hm
      · simp at hm
      · simp at hm
    · exact isDigit_ne_dot (hdig _ hm) rfl

theorem format_exact_text_witness :
    (-MAX_MONEY ≤ (-1234567 : Int) ∧ (-1234567 : Int) ≤ MAX_MONEY) ∧
      format biblioUnit.mLEX (-1234567) false SeparatorStyle.NEVER false
        = (if (-1234567 : Int) < 0 then ['-'] else [])
          ++ Nat.toDigits 10 ((-1234567 : Int).natAbs / (factor biblioUnit.mLEX).natAbs)
          ++ (if decimals biblioUnit.mLEX > 0 then
                '.' :: (List.replicate
                    (decimals biblioUnit.mLEX
                      - (Nat.toDigits 10
                          ((-1234567 : Int).natAbs % (factor biblioUnit.mLEX).natAbs)).length) '0'
                  ++ Nat.toDigits 10 ((-1234567 : Int).natAbs % (factor biblioUnit.mLEX).natAbs))
              else []) :=
  ⟨by decide, (format_exact_text biblioUnit.mLEX (-1234567) (by decide) (by decide)).1⟩

/-- C16: fixed-width justification.  For `0 ≤ a ≤ MAX_MONEY` the output with
no grouping and `justify` set is spaces, then the decimal digits of
`a / factor`, then the fraction; spaces and digits together take exactly
`16 - decimals` characters, so the output has 17 characters for LEX, mLEX and
uLEX and 16 for SAT. -/
theorem format_justified_width (unit : biblioUnit) (a : Int) (hlo : 0 ≤ a)
    (hhi : a ≤ MAX_MONEY) :
    format unit a false SeparatorStyle.NEVER true
        = List.replicate
            (16 - decimals unit - (Nat.toDigits 10 (a.natAbs / (factor unit).natAbs)).length) ' '
          ++ Nat.toDigits 10 (a.natAbs / (factor unit).natAbs)
          ++ (if decimals unit > 0 then
                '.' :: rightJustified (Nat.toDigits 10 (a.natAbs % (factor unit).natAbs))
                  (decimals unit) '0'
              else [])
      ∧ (List.replicate
            (16 - decimals unit - (Nat.toDigits 10 (a.natAbs / (factor unit).natAbs)).length) ' '
          ++ Nat.toDigits 10 (a.natAbs / (factor unit).natAbs)).length = 16 - decimals unit
      ∧ (format unit a false SeparatorStyle.NEVER true).length
          = (if unit = biblioUnit.SAT then 16 else 17) := by
  unfold MAX_MONEY at hhi
  have h1 : INT64_MIN < a := by unfold INT64_MIN; omega
  have h2 : a ≤ INT64_MAX := by unfold INT64_MAX; omega
  have hq := quotient_length unit a.natAbs (by omega)
  have hneg : ¬ a < 0 := by omega
  have hfmt := format_never unit a false true h1 h2
  simp only [leadingSign, hneg, if_false, Bool.false_eq_true, false_and, List.nil_append,
    if_true, rightJustified, MAX_DIGITS_LEX] at hfmt
  rw [natAbs_factor]
  refine ⟨?_, ?_, ?_⟩
  · rw [hfmt]; rfl
  · simp only [List.length_append, List.length_replicate]; omega
  · rw [hfmt]
    cases unit
    all_goals
      have hf := length_toDigits_mod
      simp only [decimals] at hq ⊢
      simp only [List.length_append, List.length_replicate, List.length_cons, gt_iff_lt,
        Nat.lt_irrefl, if_false, if_true, Nat.zero_lt_succ, List.length_nil, reduceCtorEq]
      first
        | omega
        | (have h8 := hf 8 a.natAbs (by decide); have h5 := hf 5 a.natAbs (by decide)
           have h2 := hf 2 a.natAbs (by decide); omega)

theorem format_justified_width_witness :
    ((0 : Int) ≤ 150000000 ∧ (150000000 : Int) ≤ MAX_MONEY) ∧
      (format biblioUnit.LEX 150000000 false SeparatorStyle.NEVER true).length
        = (if biblioUnit.LEX = biblioUnit.SAT then 16 else 17) :=
  ⟨by decide, (format_justified_width biblioUnit.LEX 150000000 (by decide) (by decide)).2.2⟩

/-! ## Privacy, the tag codec, the list model -/

theorem formatWithPrivacy_masked (unit : biblioUnit) (a : Int) (separators : SeparatorStyle)
    (h : 0 ≤ a) :
    formatWithPrivacy unit a separators true
      = some (replace (format unit 0 false separators true) '0' '#' ++ [' '] ++ shortName unit) := by
  unfold formatWithPrivacy
  rw [if_pos h]
  rfl

/-- C14: privacy masking reveals nothing.  With `privacy` set, any two
non-negative amounts give the same string, and that string contains no
decimal digit. -/
theorem formatWithPrivacy_hides_amount (unit : biblioUnit) (separators : SeparatorStyle)
    (a1 a2 : Int) (h1 : 0 ≤ a1) (h2 : 0 ≤ a2) :
    formatWithPrivacy unit a1 separators true = formatWithPrivacy unit a2 separators true
      ∧ ∃ s, formatWithPrivacy unit a1 separators true = some s ∧ ∀ c ∈ s, isDigit c = false := by
  rw [formatWithPrivacy_masked unit a1 separators h1, formatWithPrivacy_masked unit a2 separators h2]
  refine ⟨rfl, _, rfl, ?_⟩
  cases unit <;> cases separators <;> decide

theorem formatWithPrivacy_hides_amount_witness :
    ((0 : Int) ≤ 5 ∧ (0 : Int) ≤ 123456789012345) ∧
      (formatWithPrivacy biblioUnit.LEX 5 SeparatorStyle.ALWAYS true
          = formatWithPrivacy biblioUnit.LEX 123456789012345 SeparatorStyle.ALWAYS true
        ∧ ∃ s, formatWithPrivacy biblioUnit.LEX 5 SeparatorStyle.ALWAYS true = some s
            ∧ ∀ c ∈ s, isDigit c = false) :=
  ⟨by decide,
    formatWithPrivacy_hides_amount biblioUnit.LEX SeparatorStyle.ALWAYS 5 123456789012345
      (by decide) (by decide)⟩

/-- C15: unit tag codec.  Decoding the tag of a unit gives the unit back; the
tags are 0, 1, 2, 3 for LEX, mLEX, uLEX, SAT, all distinct; encoding the
unit decoded from a tag in 0..3 gives the tag back; and an 8-bit tag outside
0..3 decodes to no unit. -/
theorem tag_codec_roundtrip (u w : biblioUnit) (t : Int) :
    FromQint8 (ToQint8 u) = some u
      ∧ (0 ≤ ToQint8 u ∧ ToQint8 u ≤ 3)
      ∧ (ToQint8 biblioUnit.LEX = 0 ∧ ToQint8 biblioUnit.mLEX = 1 ∧ ToQint8 biblioUnit.uLEX = 2
          ∧ ToQint8 biblioUnit.SAT = 3)
      ∧ (ToQint8 u = ToQint8 w → u = w)
      ∧ (0 ≤ t → t ≤ 3 → ∃ x, FromQint8 t = some x ∧ ToQint8 x = t)
      ∧ (-128 ≤ t → t ≤ 127 → (t < 0 ∨ 3 < t) → FromQint8 t = none) := by
  refine ⟨?_, ?_, by decide, ?_, ?_, ?_⟩
  · cases u <;> rfl
  · cases u <;> decide
  · cases u <;> cases w <;> decide
  · intro h0 h3
    have : t = 0 ∨ t = 1 ∨ t = 2 ∨ t = 3 := by omega
    rcases this with rfl | rfl | rfl | rfl
    · exact ⟨biblioUnit.LEX, rfl, rfl⟩
    · exact ⟨biblioUnit.mLEX, rfl, rfl⟩
    · exact ⟨biblioUnit.uLEX, rfl, rfl⟩
    · exact ⟨biblioUnit.SAT, rfl, rfl⟩
  · intro _ _ h
    unfold FromQint8
    rw [if_neg (by omega), if_neg (by omega), if_neg (by omega), if_neg (by omega)]

theorem tag_codec_roundtrip_witness :
    ((-128 : Int) ≤ 4 ∧ (4 : Int) ≤ 127 ∧ ((4 : Int) < 0 ∨ (3 : Int) < 4)) ∧ FromQint8 4 = none :=
  ⟨by decide,
    (tag_codec_roundtrip biblioUnit.LEX biblioUnit.SAT 4).2.2.2.2.2 (by decide) (by decide)
      (by decide)⟩

/-- C18: the unit catalogue is complete and ordered.  `availableUnits` is
the list LEX, mLEX, uLEX, SAT, every unit occurs in it exactly once, the row
count of the display model is 4, `data` answers from the unit at the row for
rows 0..3 and gives an empty value for every other row. -/
theorem catalogue_complete (u : biblioUnit) (row role : Int) :
    availableUnits = [biblioUnit.LEX, biblioUnit.mLEX, biblioUnit.uLEX, biblioUnit.SAT]
      ∧ availableUnits.count u = 1
      ∧ rowCount UnitsModel.construct = 4
      ∧ (0 ≤ row → row < 4 → ∃ unit, availableUnits.get? row.toNat = some unit
          ∧ data UnitsModel.construct row DisplayRole = QVariant.string (longName unit)
          ∧ data UnitsModel.construct row EditRole = QVariant.string (longName unit)
          ∧ data UnitsModel.construct row ToolTipRole = QVariant.string (description unit)
          ∧ data UnitsModel.construct row UnitRole = QVariant.unit unit)
      ∧ ((row < 0 ∨ 4 ≤ row) → data UnitsModel.construct row role = QVariant.invalid) := by
  refine ⟨rfl, ?_, rfl, ?_, ?_⟩
  · cases u <;> decide
  · intro h0 h4
    have : row = 0 ∨ row = 1 ∨ row = 2 ∨ row = 3 := by omega
    rcases this with rfl | rfl | rfl | rfl
    · exact ⟨biblioUnit.LEX, by decide⟩
    · exact ⟨biblioUnit.mLEX, by decide⟩
    · exact ⟨biblioUnit.uLEX, by decide⟩
    · exact ⟨biblioUnit.SAT, by decide⟩
  · intro h
    have hlen : ((UnitsModel.construct.unitlist.length : Nat) : Int) = 4 := rfl
    unfold data
    rw [if_neg (by rw [hlen]; omega)]

theorem catalogue_complete_witness :
    (((7 : Int) < 0 ∨ (4 : Int) ≤ 7)) ∧ data UnitsModel.construct 7 UnitRole = QVariant.invalid :=
  ⟨by decide, (catalogue_complete biblioUnit.LEX 7 UnitRole).2.2.2.2 (by decide)⟩

/-! ## Boundary cases of `parse` -/

theorem rejected_of_long_fraction (unit : biblioUnit) (text a b : QString)
    (hs : removeSpaces text = a ++ '.' :: b) (ha : '.' ∉ a) (hb : '.' ∉ b)
    (hlen : b.length > decimals unit) : rejectedBeforeConversion unit text = true := by
  have hparts : parseParts text = [a, b] := by
    unfold parseParts
    rw [hs, split_append_sep '.' b a ha, split_of_not_mem '.' b hb]
  have hfrac : fractionPart text = b := by
    unfold fractionPart
    rw [hparts]
    rfl
  unfold rejectedBeforeConversion
  rw [hfrac]
  simp [hlen]

/-- C17, counterexample: "1.123456789" has nine fractional digits and
`parse` rejects it for LEX. -/
theorem parse_nine_decimals_rejected :
    parse biblioUnit.LEX ['1', '.', '1', '2', '3', '4', '5', '6', '7', '8', '9'] (some 7)
      = (false, some 7) := by
  decide

/-- C17, amended: for LEX, which has 8 decimal places, "1.12345678" (eight
fractional digits) is accepted and stores 112345678, and the same text with
one more fractional digit is rejected. -/
theorem parse_eight_decimals_boundary (v : Int) (c : QChar) (hc : isDigit c = true) :
    parse biblioUnit.LEX ['1', '.', '1', '2', '3', '4', '5', '6', '7', '8'] (some v)
        = (true, some 112345678)
      ∧ (parse biblioUnit.LEX (['1', '.', '1', '2', '3', '4', '5', '6', '7', '8'] ++ [c])
          (some v)).1 = false := by
  constructor
  · have h := parse_whole_frac biblioUnit.LEX false ['1'] ['1', '2', '3', '4', '5', '6', '7', '8']
      v (by decide) (by decide) (by decide) (by decide) (by decide)
    simp only [signText, Bool.false_eq_true, if_false, List.nil_append] at h
    exact h
  · have hb : ∀ x ∈ ['1', '2', '3', '4', '5', '6', '7', '8'] ++ [c], isDigit x = true := by
      intro x hx
      have h8 : ∀ y ∈ ['1', '2', '3', '4', '5', '6', '7', '8'], isDigit y = true := by decide
      rcases List.mem_append.mp hx with h | h
      · exact h8 x h
      · rw [List.mem_singleton.mp h]; exact hc
    have hs : removeSpaces (['1', '.', '1', '2', '3', '4', '5', '6', '7', '8'] ++ [c])
        = ['1'] ++ '.' :: (['1', '2', '3', '4', '5', '6', '7', '8'] ++ [c]) := by
      have e : (['1', '.', '1', '2', '3', '4', '5', '6', '7', '8'] ++ [c] : QString)
          = ['1'] ++ '.' :: (['1', '2', '3', '4', '5', '6', '7', '8'] ++ [c]) := rfl
      rw [e, removeSpaces_append, removeSpaces_digits ['1'] (by decide),
        removeSpaces_cons_keep (by decide) (by decide), removeSpaces_digits _ hb]
    rw [parse_rejected biblioUnit.LEX _ _
      (rejected_of_long_fraction biblioUnit.LEX _ _ _ hs (by decide) (not_dot_mem_digits hb)
        (by simp [decimals]))]

theorem parse_eight_decimals_boundary_witness :
    isDigit '9' = true ∧
      (parse biblioUnit.LEX ['1', '.', '1', '2', '3', '4', '5', '6', '7', '8'] (some 7)
          = (true, some 112345678)
        ∧ (parse biblioUnit.LEX (['1', '.', '1', '2', '3', '4', '5', '6', '7', '8'] ++ ['9'])
            (some 7)).1 = false) :=
  ⟨by decide, parse_eight_decimals_boundary 7 '9' (by decide)⟩

theorem removeSpaces_all_space (text : QString) (h : ∀ c ∈ text, c = ' ') :
    removeSpaces text = [] := by
  rw [List.eq_nil_iff_forall_not_mem]
  intro c hc
  obtain ⟨h1, h2, _⟩ := mem_removeSpaces.mp hc
  exact h2 (h c h1)

theorem removeSpaces_space_dot (text : QString) (hcount : text.count '.' = 1)
    (h : ∀ c ∈ text, c = ' ' ∨ c = '.') : removeSpaces text = ['.'] := by
  have hall : ∀ c ∈ removeSpaces text, c = '.' := by
    intro c hc
    obtain ⟨h1, h2, _⟩ := mem_removeSpaces.mp hc
    rcases h c h1 with e | e
    · exact absurd e h2
    · exact e
  have hrep : removeSpaces text = List.replicate (removeSpaces text).length '.' :=
    List.eq_replicate_of_mem hall
  have hc2 := count_dot_removeSpaces text
  rw [hcount, hrep, List.count_replicate_self] at hc2
  rw [hrep, hc2]
  rfl

theorem parse_blank (unit : biblioUnit) (text : QString) (v : Int) (hne : text ≠ [])
    (h : removeSpaces text = [] ∨ removeSpaces text = ['.']) :
    parse unit text (some v)
      = ((toLongLong (List.replicate (decimals unit) '0')).2,
          some (toLongLong (List.replicate (decimals unit) '0')).1) := by
  rcases h with h | h
  · have hs : split (removeSpaces text) '.' = [[]] := by rw [h]; rfl
    rw [parse_of_one_part unit text [] v hne hs (by cases unit <;> decide)]
    rfl
  · have hs : split (removeSpaces text) '.' = [[], []] := by rw [h]; rfl
    rw [parse_of_two_parts unit text [] [] v hne hs (Nat.zero_le _) (by cases unit <;> decide)]
    rfl

/-- C20: blank input depends on the unit.  For a non-empty text made only of
spaces, or of spaces and a single `.`, `parse` succeeds and stores 0 for
every unit with decimals (the zero padding alone is converted), and returns
false for SAT, where the string to convert is empty. -/
theorem parse_blank_text (unit : biblioUnit) (text : QString) (v : Int) (hne : text ≠ [])
    (h : (∀ c ∈ text, c = ' ') ∨ (text.count '.' = 1 ∧ ∀ c ∈ text, c = ' ' ∨ c = '.')) :
    (decimals unit > 0 → parse unit text (some v) = (true, some 0))
      ∧ (parse biblioUnit.SAT text (some v)).1 = false
      ∧ parseStr biblioUnit.SAT text = [] := by
  have hrs : removeSpaces text = [] ∨ removeSpaces text = ['.'] := by
    rcases h with h | h
    · exact Or.inl (removeSpaces_all_space text h)
    · exact Or.inr (removeSpaces_space_dot text h.1 h.2)
  refine ⟨?_, ?_, ?_⟩
  · intro hd
    rw [parse_blank unit text v hne hrs]
    cases unit
    · decide
    · decide
    · decide
    · exact absurd hd (by decide)
  · rw [parse_blank biblioUnit.SAT text v hne hrs]
    decide
  · unfold parseStr wholePart fractionPart parseParts
    rcases hrs with e | e <;> rw [e] <;> rfl

theorem parse_blank_text_witness :
    ([' ', '.', ' '] ≠ ([] : QString)
        ∧ ((∀ c ∈ [' ', '.', ' '], c = ' ')
          ∨ ([' ', '.', ' '].count '.' = 1 ∧ ∀ c ∈ [' ', '.', ' '], c = ' ' ∨ c = '.'))) ∧
      ((decimals biblioUnit.uLEX > 0 → parse biblioUnit.uLEX [' ', '.', ' '] (some 7)
          = (true, some 0))
        ∧ (parse biblioUnit.SAT [' ', '.', ' '] (some 7)).1 = false
        ∧ parseStr biblioUnit.SAT [' ', '.', ' '] = []) :=
  ⟨by decide, parse_blank_text biblioUnit.uLEX [' ', '.', ' '] 7 (by decide) (by decide)⟩

/-! ## Where the grouping separator occurs -/

theorem mem_insert_of_mem {s : QString} {c : QChar} (i : Nat) (ch : QChar) (h : c ∈ s) :
    c ∈ insert s i ch := by
  rw [← List.take_append_drop i s] at h
  simp only [insert, List.mem_append, List.mem_cons] at h ⊢
  tauto

theorem mem_insert_self (s : QString) (i : Nat) (ch : QChar) : ch ∈ insert s i ch := by
  simp [insert]

theorem mem_groupLoop_of_mem (q_size : Nat) (c : QChar) : ∀ (fuel i : Nat) (s : QString),
    c ∈ s → c ∈ groupLoop q_size fuel i s := by
  intro fuel
  induction fuel with
  | zero => intro i s h; exact h
  | succ fuel ih =>
    intro i s h
    simp only [groupLoop]
    split_ifs
    · exact ih _ _ (mem_insert_of_mem _ _ h)
    · exact h

theorem thin_mem_groupLoop (q_size : Nat) (s : QString) (h : 3 < q_size) :
    thin_sp ∈ groupLoop q_size q_size 3 s := by
  obtain ⟨f, rfl⟩ : ∃ f, q_size = f + 1 := ⟨q_size - 1, by omega⟩
  simp only [groupLoop, h, if_true]
  exact mem_groupLoop_of_mem _ _ _ _ _ (mem_insert_self _ _ _)

theorem thin_not_mem_quotient (unit : biblioUnit) (m : Nat) (justify : Bool) :
    thin_sp ∉ (if justify = true then
        rightJustified (Nat.toDigits 10 (m / 10 ^ decimals unit)) (MAX_DIGITS_LEX - decimals unit) ' '
      else Nat.toDigits 10 (m / 10 ^ decimals unit)) := by
  intro h
  cases justify
  · exact isDigit_ne_thin (all_isDigit_toDigits _ _ h) rfl
  · simp only [rightJustified, if_true, List.mem_append] at h
    rcases h with h | h
    · have := (List.mem_replicate.mp h).2
      revert this; decide
    · exact isDigit_ne_thin (all_isDigit_toDigits _ _ h) rfl

theorem thin_not_mem_fraction (unit : biblioUnit) (m : Nat) :
    thin_sp ∉ fractionText unit (m : Int) := by
  intro h
  rcases mem_fractionText unit m thin_sp h with h2 | h2
  · exact isDigit_ne_thin h2 rfl
  · revert h2; decide

theorem thin_not_mem_leadingSign (a : Int) (fPlus : Bool) : thin_sp ∉ leadingSign a fPlus := by
  unfold leadingSign
  split_ifs <;> decide

theorem length_quotient_justified (unit : biblioUnit) (s : QString) :
    4 < (rightJustified s (MAX_DIGITS_LEX - decimals unit) ' ').length := by
  simp only [rightJustified, List.length_append, List.length_replicate, MAX_DIGITS_LEX]
  cases unit <;> simp only [decimals] <;> omega

theorem thin_mem_integerText_standard (unit : biblioUnit) (m : Nat) (justify : Bool) :
    thin_sp ∈ integerText unit (m : Int) SeparatorStyle.STANDARD justify
      ↔ (justify = true ∨ 4 < (Nat.toDigits 10 (m / 10 ^ decimals unit)).length) := by
  have hq := thin_not_mem_quotient unit m justify
  have hlen : 4 < (if justify = true then
        rightJustified (Nat.toDigits 10 (m / 10 ^ decimals unit)) (MAX_DIGITS_LEX - decimals unit) ' '
      else Nat.toDigits 10 (m / 10 ^ decimals unit)).length
      ↔ (justify = true ∨ 4 < (Nat.toDigits 10 (m / 10 ^ decimals unit)).length) := by
    cases justify
    · simp
    · simp only [if_true, true_or, iff_true]
      exact length_quotient_justified unit _
  unfold integerText
  rw [factor_eq, ← Int.ofNat_tdiv, number_natCast]
  dsimp only
  rw [← hlen]
  generalize (if justify = true then
        rightJustified (Nat.toDigits 10 (m / 10 ^ decimals unit)) (MAX_DIGITS_LEX - decimals unit) ' '
      else Nat.toDigits 10 (m / 10 ^ decimals unit)) = q1 at hq ⊢
  by_cases h4 : q1.length > 4
  · have hcond : SeparatorStyle.STANDARD = SeparatorStyle.ALWAYS
        ∨ (SeparatorStyle.STANDARD = SeparatorStyle.STANDARD ∧ q1.length > 4) :=
      Or.inr ⟨rfl, h4⟩
    rw [if_pos hcond]
    exact ⟨fun _ => h4, fun _ => thin_mem_groupLoop _ _ (by omega)⟩
  · have hcond : ¬ (SeparatorStyle.STANDARD = SeparatorStyle.ALWAYS
        ∨ (SeparatorStyle.STANDARD = SeparatorStyle.STANDARD ∧ q1.length > 4)) := by
      rintro (h | h)
      · exact absurd h (by decide)
      · exact h4 h.2
    rw [if_neg hcond]
    exact ⟨fun h => absurd h hq, fun h => absurd h h4⟩

/-- C12, counterexample: with `justify` set and the STANDARD style, the
amount 0 for LEX is formatted with grouping separators although its integer
part "0" has a single digit. -/
theorem format_standard_justified_groups :
    thin_sp ∈ format biblioUnit.LEX 0 false SeparatorStyle.STANDARD true
      ∧ ¬ 4 < (Nat.toDigits 10 ((0 : Int).natAbs / (factor biblioUnit.LEX).natAbs)).length := by
  decide

/-- C12, amended: for every unit, every 64-bit amount, `fPlus` and `justify`,
the output of `format` with the STANDARD style contains the thin space
exactly when `justify` is set (the padded integer part then has at least 8
characters) or the integer part `|amount| / factor` has more than 4 decimal
digits. -/
theorem format_standard_threshold (unit : biblioUnit) (a : Int) (fPlus justify : Bool)
    (hlo : INT64_MIN ≤ a) (hhi : a ≤ INT64_MAX) :
    thin_sp ∈ format unit a fPlus SeparatorStyle.STANDARD justify
      ↔ (justify = true
          ∨ 4 < (Nat.toDigits 10 (a.natAbs / (factor unit).natAbs)).length) := by
  rcases eq_or_lt_of_le hlo with h | h
  · subst h
    cases unit <;> cases fPlus <;> cases justify <;> decide
  · rw [format_eq, absAmount_eq a h hhi, natAbs_factor,
      ← thin_mem_integerText_standard unit a.natAbs justify]
    simp only [List.mem_append]
    constructor
    · rintro ((h1 | h1) | h1)
      · exact absurd h1 (thin_not_mem_leadingSign a fPlus)
      · exact h1
      · exact absurd h1 (thin_not_mem_fraction unit a.natAbs)
    · intro h1
      exact Or.inl (Or.inr h1)

theorem format_standard_threshold_witness :
    (INT64_MIN ≤ (1234500000000 : Int) ∧ (1234500000000 : Int) ≤ INT64_MAX) ∧
      (thin_sp ∈ format biblioUnit.LEX 1234500000000 true SeparatorStyle.STANDARD false
        ↔ (false = true
          ∨ 4 < (Nat.toDigits 10
              ((1234500000000 : Int).natAbs / (factor biblioUnit.LEX).natAbs)).length)) :=
  ⟨by decide,
    format_standard_threshold biblioUnit.LEX 1234500000000 true false (by decide) (by decide)⟩

/-! ## Grouping by threes -/

theorem joinGroups_append (gs hs : List QString) :
    joinGroups (gs ++ hs) = joinGroups gs ++ joinGroups hs := by
  induction gs with
  | nil => rfl
  | cons g gs ih => simp [joinGroups, ih]

theorem split_joinGroups : ∀ (gs : List QString) (p : QString), thin_sp ∉ p →
    (∀ g ∈ gs, thin_sp ∉ g) → split (p ++ joinGroups gs) thin_sp = p :: gs := by
  intro gs
  induction gs with
  | nil =>
    intro p hp _
    simp only [joinGroups, List.append_nil]
    exact split_of_not_mem thin_sp p hp
  | cons g gs ih =>
    intro p hp hg
    simp only [joinGroups]
    rw [split_append_sep thin_sp _ p hp, ih g (hg g (by simp)) (fun x hx => hg x (by simp [hx]))]

theorem insert_append_left (p t : QString) (k : Nat) (ch : QChar) (hk : k ≤ p.length) :
    insert (p ++ t) k ch = p.take k ++ ch :: (p.drop k ++ t) := by
  unfold insert
  rw [List.take_append_of_le_length hk, List.drop_append_of_le_length hk]

/-- The grouping loop, started with `i - 3` characters already grouped on
the right: it leaves a first group of 1 to 3 characters and cuts the rest of
the ungrouped prefix `p` into groups of exactly 3. -/
theorem groupLoop_groups (q_size : Nat) : ∀ (fuel i : Nat) (p : QString) (gs : List QString),
    i + p.length = q_size + 3 → q_size ≤ i + 3 * fuel → 1 ≤ p.length →
    ∃ (first : QString) (mid : List QString),
      groupLoop q_size fuel i (p ++ joinGroups gs) = first ++ joinGroups (mid ++ gs)
        ∧ 1 ≤ first.length ∧ first.length ≤ 3
        ∧ (∀ g ∈ mid, g.length = 3)
        ∧ (∀ c ∈ first, c ∈ p) ∧ (∀ g ∈ mid, ∀ c ∈ g, c ∈ p) := by
  intro fuel
  induction fuel with
  | zero =>
    intro i p gs hi hf hp
    exact ⟨p, [], rfl, hp, by omega, by simp, fun c hc => hc, by simp⟩
  | succ fuel ih =>
    intro i p gs hi hf hp
    simp only [groupLoop]
    by_cases hlt : i < q_size
    · rw [if_pos hlt]
      have hk : q_size - i = p.length - 3 := by omega
      rw [hk, insert_append_left p _ _ thin_sp (by omega)]
      have hjoin : thin_sp :: (p.drop (p.length - 3) ++ joinGroups gs)
          = joinGroups (p.drop (p.length - 3) :: gs) := rfl
      rw [hjoin]
      have hl1 : (p.take (p.length - 3)).length = p.length - 3 := by
        rw [List.length_take]; omega
      have hl2 : (p.drop (p.length - 3)).length = 3 := by
        rw [List.length_drop]; omega
      obtain ⟨first, mid, heq, h1, h3, hm, hcf, hcm⟩ :=
        ih (i + 3) (p.take (p.length - 3)) (p.drop (p.length - 3) :: gs)
          (by rw [hl1]; omega) (by omega) (by rw [hl1]; omega)
      refine ⟨first, mid ++ [p.drop (p.length - 3)], ?_, h1, h3, ?_, ?_, ?_⟩
      · rw [heq, List.append_assoc]; rfl
      · intro g hg
        rcases List.mem_append.mp hg with h | h
        · exact hm g h
        · rw [List.mem_singleton.mp h]; exact hl2
      · intro c hc
        exact List.mem_of_mem_take (hcf c hc)
      · intro g hg c hc
        rcases List.mem_append.mp hg with h | h
        · exact List.mem_of_mem_take (hcm g h c hc)
        · rw [List.mem_singleton.mp h] at hc
          exact List.mem_of_mem_drop hc
    · rw [if_neg hlt]
      exact ⟨p, [], rfl, hp, by omega, by simp, fun c hc => hc, by simp⟩

theorem integerText_always (unit : biblioUnit) (m : Nat) :
    integerText unit (m : Int) SeparatorStyle.ALWAYS false
      = groupLoop (Nat.toDigits 10 (m / 10 ^ decimals unit)).length
          (Nat.toDigits 10 (m / 10 ^ decimals unit)).length 3
          (Nat.toDigits 10 (m / 10 ^ decimals unit)) := by
  unfold integerText
  rw [factor_eq, ← Int.ofNat_tdiv, number_natCast]
  simp

theorem integerText_never (unit : biblioUnit) (m : Nat) :
    integerText unit (m : Int) SeparatorStyle.NEVER false
      = Nat.toDigits 10 (m / 10 ^ decimals unit) := by
  unfold integerText
  rw [factor_eq, ← Int.ofNat_tdiv, number_natCast]
  simp

theorem integerText_always_groups (unit : biblioUnit) (m : Nat) :
    ∃ (first : QString) (rest : List QString),
      split (integerText unit (m : Int) SeparatorStyle.ALWAYS false) thin_sp = first :: rest
        ∧ 1 ≤ first.length ∧ first.length ≤ 3 ∧ (∀ c ∈ first, isDigit c = true)
        ∧ ∀ g ∈ rest, g.length = 3 ∧ ∀ c ∈ g, isDigit c = true := by
  have hd := all_isDigit_toDigits (m / 10 ^ decimals unit)
  have hne := toDigits_ne_nil (m / 10 ^ decimals unit)
  have hlen : 1 ≤ (Nat.toDigits 10 (m / 10 ^ decimals unit)).length := by
    cases h : Nat.toDigits 10 (m / 10 ^ decimals unit) with
    | nil => exact absurd h hne
    | cons c cs => simp
  obtain ⟨first, mid, heq, h1, h3, hm, hcf, hcm⟩ :=
    groupLoop_groups (Nat.toDigits 10 (m / 10 ^ decimals unit)).length
      (Nat.toDigits 10 (m / 10 ^ decimals unit)).length 3
      (Nat.toDigits 10 (m / 10 ^ decimals unit)) [] (by omega) (by omega) hlen
  simp only [joinGroups, List.append_nil] at heq
  refine ⟨first, mid, ?_, h1, h3, fun c hc => hd c (hcf c hc),
    fun g hg => ⟨hm g hg, fun c hc => hd c (hcm g hg c hc)⟩⟩
  rw [integerText_always, heq]
  exact split_joinGroups mid first (fun h => isDigit_ne_thin (hd _ (hcf _ h)) rfl)
    (fun g hg h => isDigit_ne_thin (hd _ (hcm g hg _ h)) rfl)

theorem absAmount_nonneg (a : Int) (h : 0 ≤ a) : absAmount a = (a.natAbs : Int) := by
  unfold absAmount wrapInt64
  split_ifs <;> omega

theorem filter_thin_insert (s : QString) (i : Nat) :
    (insert s i thin_sp).filter (fun c => c != thin_sp) = s.filter (fun c => c != thin_sp) := by
  have h : (thin_sp != thin_sp) = false := by decide
  unfold insert
  rw [List.filter_append, List.filter_cons, h]
  simp only [Bool.false_eq_true, if_false]
  rw [← List.filter_append, List.take_append_drop]

theorem filter_thin_groupLoop (q_size : Nat) : ∀ (fuel i : Nat) (s : QString),
    (groupLoop q_size fuel i s).filter (fun c => c != thin_sp)
      = s.filter (fun c => c != thin_sp) := by
  intro fuel
  induction fuel with
  | zero => intro i s; rfl
  | succ fuel ih =>
    intro i s
    simp only [groupLoop]
    split_ifs
    · rw [ih, filter_thin_insert]
    · rfl

theorem filter_thin_of_not_mem (s : QString) (h : thin_sp ∉ s) :
    s.filter (fun c => c != thin_sp) = s := by
  rw [List.filter_eq_self]
  intro c hc
  have : c ≠ thin_sp := fun e => h (e ▸ hc)
  simpa using this

theorem format_nonneg_eq (unit : biblioUnit) (a : Int) (separators : SeparatorStyle)
    (h : 0 ≤ a) :
    format unit a false separators false
      = integerText unit (a.natAbs : Int) separators false
          ++ fractionText unit (a.natAbs : Int) := by
  have hneg : ¬ a < 0 := by omega
  rw [format_eq, absAmount_nonneg a h]
  simp [leadingSign, hneg]

theorem dot_not_mem_integerText (unit : biblioUnit) (m : Nat) (separators : SeparatorStyle)
    (justify : Bool) : '.' ∉ integerText unit (m : Int) separators justify := by
  intro h
  rcases mem_integerText unit m separators justify '.' h with h2 | h2 | h2
  · exact absurd h2 (by decide)
  · exact absurd h2 (by decide)
  · exact absurd h2 (by decide)

theorem head_split_format (unit : biblioUnit) (m : Nat) (separators : SeparatorStyle)
    (justify : Bool) :
    (split (integerText unit (m : Int) separators justify ++ fractionText unit (m : Int))
        '.').headD []
      = integerText unit (m : Int) separators justify := by
  have hI := dot_not_mem_integerText unit m separators justify
  rw [fractionText_natCast]
  split_ifs
  · rw [split_append_sep '.' _ _ hI]
    rfl
  · rw [List.append_nil, split_of_not_mem '.' _ hI]
    rfl

theorem thin_not_mem_after_marker (unit : biblioUnit) (m : Nat) (separators : SeparatorStyle)
    (justify : Bool) (pre post : QString)
    (h : integerText unit (m : Int) separators justify ++ fractionText unit (m : Int)
      = pre ++ '.' :: post) : thin_sp ∉ post := by
  have hI := dot_not_mem_integerText unit m separators justify
  have hF := thin_not_mem_fraction unit m
  intro hp
  rcases List.append_eq_append_iff.mp h with ⟨a, _, h2⟩ | ⟨c, h1, h2⟩
  · apply hF
    rw [h2]
    simp [hp]
  · cases c with
    | nil =>
      apply hF
      simp only [List.nil_append] at h2
      rw [← h2]
      simp [hp]
    | cons x xs =>
      simp only [List.cons_append, List.cons.injEq] at h2
      apply hI
      rw [h1, ← h2.1]
      simp

/-- C13: grouping is by threes from the right of the integer part only.  For
every unit and amount `a ≥ 0`, the ALWAYS output without its thin spaces is
the ungrouped output; the integer part (the text before the decimal marker)
splits at the thin spaces into a first group of 1 to 3 digits and groups of
exactly 3 digits; no thin space occurs after the decimal marker; and
`format(LEX, 123456789012345, false, ALWAYS, false)` is
`1 234 567.89012345` with thin spaces. -/
theorem format_groups_by_three (unit : biblioUnit) (a : Int) (h : 0 ≤ a) :
    (format unit a false SeparatorStyle.ALWAYS false).filter (fun c => c != thin_sp)
        = format unit a false SeparatorStyle.NEVER false
      ∧ (∃ (first : QString) (rest : List QString),
          split ((split (format unit a false SeparatorStyle.ALWAYS false) '.').headD []) thin_sp
              = first :: rest
            ∧ 1 ≤ first.length ∧ first.length ≤ 3 ∧ (∀ c ∈ first, isDigit c = true)
            ∧ ∀ g ∈ rest, g.length = 3 ∧ ∀ c ∈ g, isDigit c = true)
      ∧ (∀ pre post : QString,
          format unit a false SeparatorStyle.ALWAYS false = pre ++ '.' :: post → thin_sp ∉ post)
      ∧ format biblioUnit.LEX 123456789012345 false SeparatorStyle.ALWAYS false
          = ['1', thin_sp, '2', '3', '4', thin_sp, '5', '6', '7', '.', '8', '9', '0', '1', '2',
              '3', '4', '5'] := by
  refine ⟨?_, ?_, ?_, by decide⟩
  · rw [format_nonneg_eq unit a _ h, format_nonneg_eq unit a _ h, List.filter_append,
      integerText_always, integerText_never, filter_thin_groupLoop,
      filter_thin_of_not_mem _ (thin_not_mem_fraction unit a.natAbs),
      filter_thin_of_not_mem _
        (fun hm => isDigit_ne_thin (all_isDigit_toDigits _ _ hm) rfl)]
  · rw [format_nonneg_eq unit a _ h, head_split_format]
    exact integerText_always_groups unit a.natAbs
  · intro pre post hfmt
    rw [format_nonneg_eq unit a _ h] at hfmt
    exact thin_not_mem_after_marker unit a.natAbs _ _ pre post hfmt

theorem format_groups_by_three_witness :
    (0 : Int) ≤ 1234567 ∧
      (format biblioUnit.SAT 1234567 false SeparatorStyle.ALWAYS false).filter
          (fun c => c != thin_sp)
        = format biblioUnit.SAT 1234567 false SeparatorStyle.NEVER false :=
  ⟨by decide, (format_groups_by_three biblioUnit.SAT 1234567 (by decide)).1⟩

/-! ## What `parse` accepts -/

theorem convertDigits_ok (negative : Bool) (ds : QString)
    (h : (convertDigits negative ds).2 = true) : ds ≠ [] ∧ ∀ c ∈ ds, isDigit c = true := by
  unfold convertDigits at h
  by_cases h1 : (ds.isEmpty || !ds.all isDigit) = true
  · rw [if_pos h1] at h
    exact absurd h (by decide)
  · simp only [Bool.or_eq_true, Bool.not_eq_true', not_or, Bool.not_eq_true,
      Bool.not_eq_false] at h1
    constructor
    · intro e
      rw [e] at h1
      exact absurd h1.1 (by decide)
    · exact List.all_eq_true.mp h1.2

theorem toLongLong_ok (s : QString) (h : (toLongLong s).2 = true) :
    ∃ (sg ds : QString), trimmed s = sg ++ ds
      ∧ (sg = [] ∨ sg = ['+'] ∨ sg = ['-'] ∨ sg = [MINUS_SIGN])
      ∧ ds ≠ [] ∧ ∀ c ∈ ds, isDigit c = true := by
  unfold toLongLong at h
  cases ht : trimmed s with
  | nil =>
    rw [ht] at h
    exact absurd h (by decide)
  | cons c cs =>
    rw [ht] at h
    dsimp only at h
    split_ifs at h with h1 h2
    · obtain ⟨hne, hd⟩ := convertDigits_ok _ _ h
      rcases h1 with h1 | h1
      · exact ⟨['-'], cs, by rw [h1]; rfl, Or.inr (Or.inr (Or.inl rfl)), hne, hd⟩
      · exact ⟨[MINUS_SIGN], cs, by rw [h1]; rfl, Or.inr (Or.inr (Or.inr rfl)), hne, hd⟩
    · obtain ⟨hne, hd⟩ := convertDigits_ok _ _ h
      exact ⟨['+'], cs, by rw [h2]; rfl, Or.inr (Or.inl rfl), hne, hd⟩
    · obtain ⟨hne, hd⟩ := convertDigits_ok _ _ h
      exact ⟨[], c :: cs, rfl, Or.inl rfl, hne, hd⟩

theorem concat_split (sep : QChar) : ∀ s : QString,
    (split s sep).foldr (fun p acc => p ++ acc) [] = s.filter (fun c => c != sep) := by
  intro s
  induction s with
  | nil => rfl
  | cons c cs ih =>
    by_cases hc : c = sep
    · subst hc
      simp [split, ih]
    · cases hsp : split cs sep with
      | nil => exact absurd hsp (split_ne_nil cs sep)
      | cons p0 ps =>
        rw [hsp] at ih
        have hsplit : split (c :: cs) sep = (c :: p0) :: ps := by simp [split, hc, hsp]
        rw [hsplit, List.filter_cons]
        simp only [List.foldr_cons, List.cons_append] at ih ⊢
        simp [hc, ih]

theorem parseStr_eq_filter (unit : biblioUnit) (text : QString)
    (hp : (parseParts text).length ≤ 2) :
    parseStr unit text
      = (removeSpaces text).filter (fun c => c != '.')
          ++ List.replicate (decimals unit - (fractionPart text).length) '0' := by
  have hc := concat_split '.' (removeSpaces text)
  unfold parseStr wholePart fractionPart leftJustified
  unfold parseParts at hp ⊢
  rw [← hc]
  generalize split (removeSpaces text) '.' = parts at hp
  match parts, hp with
  | [], _ => simp
  | [a], _ => simp
  | [a, b], _ => simp
  | _ :: _ :: _ :: _, hp => simp at hp

/-- C19, counterexample: in ".-5" the sign is not the first character, yet
`parse` succeeds for LEX and stores -5000000. -/
theorem parse_accepts_sign_after_marker :
    parse biblioUnit.LEX ['.', '-', '5'] (some 7) = (true, some (-5000000)) := by
  decide

/-- C19, amended: if `parse` succeeds then the text without spaces and thin
spaces has at most one decimal marker, the string handed to the conversion
is that text without its marker followed by the zero padding, and this
string is, between its leading and trailing whitespace, an optional single
sign (`+`, `-` or the minus sign U+2212) followed only by decimal digits. -/
theorem parse_accepted_alphabet (unit : biblioUnit) (text : QString) (v : Int)
    (h : (parse unit text (some v)).1 = true) :
    (removeSpaces text).count '.' ≤ 1
      ∧ parseStr unit text
          = (removeSpaces text).filter (fun c => c != '.')
            ++ List.replicate (decimals unit - (fractionPart text).length) '0'
      ∧ ∃ (sg ds : QString), trimmed (parseStr unit text) = sg ++ ds
          ∧ (sg = [] ∨ sg = ['+'] ∨ sg = ['-'] ∨ sg = [MINUS_SIGN]) ∧ ds ≠ []
          ∧ ∀ c ∈ ds, isDigit c = true := by
  have hr : rejectedBeforeConversion unit text = false := by
    by_cases hr : rejectedBeforeConversion unit text = true
    · rw [parse_rejected unit text _ hr] at h
      exact absurd h (by simp)
    · simpa using hr
  have hparts : (parseParts text).length ≤ 2 := by
    unfold rejectedBeforeConversion at hr
    simp only [Bool.or_eq_false_iff, decide_eq_false_iff_not] at hr
    omega
  rw [parse_converted unit text _ hr] at h
  refine ⟨?_, parseStr_eq_filter unit text hparts, toLongLong_ok _ h⟩
  unfold parseParts at hparts
  rw [length_split] at hparts
  omega

theorem parse_accepted_alphabet_witness :
    (parse biblioUnit.LEX ['.', '-', '5'] (some 7)).1 = true ∧
      ((removeSpaces ['.', '-', '5']).count '.' ≤ 1
        ∧ parseStr biblioUnit.LEX ['.', '-', '5']
            = (removeSpaces ['.', '-', '5']).filter (fun c => c != '.')
              ++ List.replicate
                  (decimals biblioUnit.LEX - (fractionPart ['.', '-', '5']).length) '0'
        ∧ ∃ (sg ds : QString), trimmed (parseStr biblioUnit.LEX ['.', '-', '5']) = sg ++ ds
            ∧ (sg = [] ∨ sg = ['+'] ∨ sg = ['-'] ∨ sg = [MINUS_SIGN]) ∧ ds ≠ []
            ∧ ∀ c ∈ ds, isDigit c = true) :=
  ⟨by decide, parse_accepted_alphabet biblioUnit.LEX ['.', '-', '5'] 7 (by decide)⟩

end biblioUnits
